import Mathlib

/-!
# Verification of the `graphstack` library

Shallow embedding of `src/lib.rs`: an append-only graph-stack store
(`GraphStack`) and its lazy depth-first path enumerator (`Stacks`).

Modelling conventions:
* Rust `Vec<T>` becomes `List T`; `usize` indices become `Nat`.
* The Rust `HashMap<usize, Vec<usize>>` becomes an association list
  `List (Nat × List Nat)` with lookup/insert/extend operations mirroring
  `HashMap::get`, `HashMap::insert` and `entry(..).or_default().extend(..)`.
* Rust panics become explicit error values (`GSError`); the three distinct
  panic sites of the source are kept distinct: the `push` validation panic,
  the `add_ancestors` validation panic, and the out-of-bounds index panics
  of `Vec`/`HashMap` indexing.
* The unbounded `while` loop of the enumerator's descend phase is modelled
  with explicit fuel; running out of fuel (`diverge`) models nontermination.
-/

/-- Error kinds corresponding to the panic sites of the Rust source. -/
inductive GSError where
  | invalidAncestor
  | invalidNodeId
  | indexOutOfBounds
deriving DecidableEq

/-- Association-list lookup, modelling `HashMap::get` / the `Index` impl. -/
def alookup : List (Nat × List Nat) → Nat → Option (List Nat)
  | [], _ => none
  | (k, v) :: rest, key => if k = key then some v else alookup rest key

/-- Association-list insert, modelling `HashMap::insert` (replaces). -/
def ainsert : List (Nat × List Nat) → Nat → List Nat → List (Nat × List Nat)
  | [], key, val => [(key, val)]
  | (k, v) :: rest, key, val =>
    if k = key then (key, val) :: rest else (k, v) :: ainsert rest key val

/-- Association-list extend-at-key, modelling
`map.entry(id).or_default().extend(xs)`. -/
def aextendEntry : List (Nat × List Nat) → Nat → List Nat → List (Nat × List Nat)
  | [], key, xs => [(key, xs)]
  | (k, v) :: rest, key, xs =>
    if k = key then (k, v ++ xs) :: rest else (k, v) :: aextendEntry rest key xs

/-- The graph-stack store: `items` holds the inserted values, `ancestors`
maps an item id to its ordered ancestor-id list (Rust struct `GraphStack`). -/
structure GraphStack (T : Type) where
  items : List T
  ancestors : List (Nat × List Nat)
deriving DecidableEq

/-- `GraphStack::new`. -/
def GraphStack.new {T : Type} : GraphStack T := ⟨[], []⟩

/-- `GraphStack::push`: validates the supplied ancestors (panic modelled as
`invalidAncestor`), appends the value and records the ancestor list under
the fresh id. Returns the updated store and the new id. -/
def GraphStack.push {T : Type} (gs : GraphStack T) (value : T) (ancs : List Nat) :
    Except GSError (GraphStack T × Nat) :=
  if ancs.any (fun a => gs.items.length ≤ a) then
    Except.error GSError.invalidAncestor
  else
    let items := gs.items ++ [value]
    let item_id := items.length - 1
    Except.ok (⟨items, ainsert gs.ancestors item_id ancs⟩, item_id)

/-- `GraphStack::add_ancestors`: panics (modelled as `invalidNodeId`) when
the id has no entry in the ancestors map; otherwise extends the entry.
The supplied ancestor ids are not validated, mirroring the source. -/
def GraphStack.add_ancestors {T : Type} (gs : GraphStack T) (id : Nat) (ancs : List Nat) :
    Except GSError (GraphStack T) :=
  if (alookup gs.ancestors id).isSome then
    Except.ok ⟨gs.items, aextendEntry gs.ancestors id ancs⟩
  else
    Except.error GSError.invalidNodeId

/-- A traversal cursor (Rust struct `Cursor`). -/
structure Cursor where
  item : Nat
  ancestor : Nat
deriving DecidableEq

/-- The enumerator state (Rust struct `Stacks`). The cursor stack and the
value buffer are stored with the top (deepest element) at the list head;
the Rust code keeps them in a `Vec` with the top at the end. -/
structure Stacks (T : Type) where
  cursors : List Cursor
  unstack : List T
  gs : GraphStack T

/-- `GraphStack::stacks` / `Stacks::new`: the source indexes
`gs.items[start_item]` without validation, so an invalid start id is an
out-of-bounds panic, modelled as `indexOutOfBounds`. -/
def GraphStack.stacks {T : Type} (gs : GraphStack T) (start_item : Nat) :
    Except GSError (Stacks T) :=
  match gs.items.get? start_item with
  | some v => Except.ok ⟨[⟨start_item, 0⟩], [v], gs⟩
  | none => Except.error GSError.indexOutOfBounds

/-- Result of the descend loop of `Stacks::next`. -/
inductive DescendR (T : Type) where
  | ok (cursors : List Cursor) (unstack : List T)
  | panicked
  | diverge
deriving DecidableEq

/-- The descend loop of `Stacks::next` ("Build a snapshot of the stack
pointed to by current cursors"): while the top cursor's node has a
non-empty ancestor list, push a cursor for the currently selected ancestor
and its value. `fuel` bounds the number of loop iterations; the source
loop is unbounded and does not terminate on cyclic data. -/
def descend {T : Type} (gs : GraphStack T) :
    Nat → List Cursor → List T → DescendR T
  | 0, _, _ => DescendR.diverge
  | fuel + 1, cursors, unstack =>
    match cursors with
    | [] => DescendR.ok [] unstack
    | c :: rest =>
      match alookup gs.ancestors c.item with
      | none => DescendR.panicked
      | some item_ancestors =>
        if item_ancestors.isEmpty then
          DescendR.ok (c :: rest) unstack
        else
          match item_ancestors.get? c.ancestor with
          | none => DescendR.panicked
          | some prev_item_id =>
            match gs.items.get? prev_item_id with
            | none => DescendR.panicked
            | some v =>
              descend gs fuel (⟨prev_item_id, 0⟩ :: c :: rest) (v :: unstack)

/-- Result of the advance loop of `Stacks::next`. -/
inductive AdvR where
  | ok (cursors : List Cursor)
  | panicked
deriving DecidableEq

/-- The advance loop of `Stacks::next` ("find the cursor to advance
depth-first"): pop cursors with no unexplored ancestor index; increment
the first one that still has one. -/
def advanceCursors {T : Type} (gs : GraphStack T) : List Cursor → AdvR
  | [] => AdvR.ok []
  | c :: rest =>
    match alookup gs.ancestors c.item with
    | none => AdvR.panicked
    | some item_ancestors =>
      if c.ancestor + 1 < item_ancestors.length then
        AdvR.ok (⟨c.item, c.ancestor + 1⟩ :: rest)
      else
        advanceCursors gs rest

/-- Result of one `Stacks::next` call: `done` models `None`, `emit` models
`Some(snapshot)` together with the successor state. -/
inductive NextR (T : Type) where
  | done
  | emit (path : List T) (s : Stacks T)
  | panicked
  | diverge

/-- `Stacks::next`: return `done` on an empty cursor stack; otherwise
descend to a root, snapshot the value buffer, advance the cursors and
truncate the buffer to the surviving cursors. -/
def Stacks.next {T : Type} (s : Stacks T) (fuel : Nat) : NextR T :=
  if s.cursors.isEmpty then NextR.done
  else
    match descend s.gs fuel s.cursors s.unstack with
    | DescendR.diverge => NextR.diverge
    | DescendR.panicked => NextR.panicked
    | DescendR.ok cursors unstack =>
      let stack_snapshot := unstack.reverse
      match advanceCursors s.gs cursors with
      | AdvR.panicked => NextR.panicked
      | AdvR.ok cursors2 =>
        NextR.emit stack_snapshot
          ⟨cursors2, unstack.drop (unstack.length - cursors2.length), s.gs⟩

/-- Drive the enumerator: collect the full sequence of emitted paths.
Returns `some paths` only when the enumerator reports exhaustion (`done`)
within `steps` calls, each call running within `fuel`; any panic,
divergence or step exhaustion yields `none`. -/
def collectPaths {T : Type} (fuel : Nat) : Nat → Stacks T → Option (List (List T))
  | 0, _ => none
  | steps + 1, s =>
    match s.next fuel with
    | NextR.done => some []
    | NextR.emit p s2 => (collectPaths fuel steps s2).map (fun l => p :: l)
    | _ => none

/-- `paths_from(start)` run to exhaustion: build the enumerator and collect
every path it yields. -/
def pathsFromN {T : Type} (gs : GraphStack T) (start fuel steps : Nat) :
    Option (List (List T)) :=
  match gs.stacks start with
  | Except.ok s => collectPaths fuel steps s
  | Except.error _ => none

/-- The first `next` call of `paths_from(start)`, used to state
(non)termination of a single enumerator step. -/
def firstNext {T : Type} (gs : GraphStack T) (start fuel : Nat) : Option (NextR T) :=
  match gs.stacks start with
  | Except.ok s => some (s.next fuel)
  | Except.error _ => none

/-- The store of the `check_iterator` test: nodes `a..h` pushed with no
ancestors, then the edges `b←a`, `c←b`, `d←b`, `e←c,d`, `f←e`, `g←d,f`,
`h←g`; paired with the id of `h`. -/
def demoStore : Except GSError (GraphStack String × Nat) := do
  let (g0, a) ← (GraphStack.new : GraphStack String).push "a" []
  let (g1, b) ← g0.push "b" []
  let (g2, c) ← g1.push "c" []
  let (g3, d) ← g2.push "d" []
  let (g4, e) ← g3.push "e" []
  let (g5, f) ← g4.push "f" []
  let (g6, g) ← g5.push "g" []
  let (g7, h) ← g6.push "h" []
  let g8 ← g7.add_ancestors b [a]
  let g9 ← g8.add_ancestors c [b]
  let g10 ← g9.add_ancestors d [b]
  let g11 ← g10.add_ancestors e [c, d]
  let g12 ← g11.add_ancestors f [e]
  let g13 ← g12.add_ancestors g [d, f]
  let g14 ← g13.add_ancestors h [g]
  pure (g14, h)

/-- Store invariant: the ancestors map has an entry exactly for the valid
item ids. Holds for every store reachable through the public API. -/
def InvGS {T : Type} (gs : GraphStack T) : Prop :=
  ∀ k, (alookup gs.ancestors k).isSome ↔ k < gs.items.length

/-- Every recorded ancestor id is a valid item id. -/
def ValidAnc {T : Type} (gs : GraphStack T) : Prop :=
  ∀ k l, alookup gs.ancestors k = some l → ∀ a ∈ l, a < gs.items.length

/-- `ancEdge gs a b`: `a` is listed as an ancestor of `b`. -/
def ancEdge {T : Type} (gs : GraphStack T) (a b : Nat) : Prop :=
  ∃ l, alookup gs.ancestors b = some l ∧ a ∈ l

/-- `a` is below `b` through one or more ancestor links. -/
def ReachesGS {T : Type} (gs : GraphStack T) : Nat → Nat → Prop :=
  Relation.TransGen (ancEdge gs)

/-- No node reaches itself by following ancestor links. -/
def AcyclicGS {T : Type} (gs : GraphStack T) : Prop :=
  ∀ n, ¬ ReachesGS gs n n

/-- Values of the cursor stack's items, deepest first; `some` exactly when
every cursor's item id is valid. The enumerator's `unstack` buffer always
equals this list. -/
def valsOf {T : Type} (gs : GraphStack T) : List Cursor → Option (List T)
  | [] => some []
  | c :: rest =>
    match gs.items.get? c.item, valsOf gs rest with
    | some v, some vs => some (v :: vs)
    | _, _ => none

/-- Concatenate the path lists of a list of child nodes, in order. -/
def seqChildren {T : Type} (f : Nat → Option (List (List T))) :
    List Nat → Option (List (List T))
  | [] => some []
  | a :: rest =>
    match f a, seqChildren f rest with
    | some ps, some qs => some (ps ++ qs)
    | _, _ => none

/-- Declarative path semantics: `pathsBelow gs fuel n i` is the list of
all descent paths from node `n` that use only ancestor choices `≥ i` at
`n` itself (and all choices at deeper nodes), in depth-first order; `none`
when `fuel` is insufficient or a lookup fails. -/
def pathsBelow {T : Type} (gs : GraphStack T) : Nat → Nat → Nat → Option (List (List T))
  | 0, _, _ => none
  | fuel + 1, n, i =>
    match gs.items.get? n, alookup gs.ancestors n with
    | some v, some l =>
      if l.isEmpty then
        some (if i = 0 then [[v]] else [])
      else
        match seqChildren (fun a => pathsBelow gs fuel a 0) (l.drop i) with
        | some ps => some (ps.map (fun p => v :: p))
        | none => none
    | _, _ => none

/-- Paths still to be produced by the cursors below the top one: each
contributes only its unexplored ancestor choices `> ancestor`, prefixed by
the values of the cursors beneath it. -/
def remAdv {T : Type} (gs : GraphStack T) (fuel : Nat) : List Cursor → Option (List (List T))
  | [] => some []
  | c :: rest =>
    match pathsBelow gs fuel c.item (c.ancestor + 1), valsOf gs rest,
        remAdv gs fuel rest with
    | some ps, some vs, some qs => some (ps.map (fun p => vs.reverse ++ p) ++ qs)
    | _, _, _ => none

/-- Paths still to be produced from an enumerator state: the top cursor
contributes its choices `≥ ancestor`, the cursors below it their choices
`> ancestor`. -/
def remTot {T : Type} (gs : GraphStack T) (fuel : Nat) : List Cursor → Option (List (List T))
  | [] => some []
  | c :: rest =>
    match pathsBelow gs fuel c.item c.ancestor, valsOf gs rest,
        remAdv gs fuel rest with
    | some ps, some vs, some qs => some (ps.map (fun p => vs.reverse ++ p) ++ qs)
    | _, _, _ => none

/-- Validity of the stack's top cursor: its current ancestor index is in
range (and 0 for a root). Maintained by the enumerator. -/
def TopOK {T : Type} (gs : GraphStack T) : List Cursor → Prop
  | [] => True
  | c :: _ => ∃ l, alookup gs.ancestors c.item = some l ∧
      (l = [] → c.ancestor = 0) ∧ (l ≠ [] → c.ancestor < l.length)

/-- Relation between a store and its extension by a successful
`add_ancestors` call on a node whose prior list was nonempty: same items,
same map domain, every ancestor list preserved as a prefix, and only
nonempty lists gain entries. -/
def ExtendsGS {T : Type} (gs gs2 : GraphStack T) : Prop :=
  gs2.items = gs.items ∧
  (∀ k, (alookup gs2.ancestors k).isSome = (alookup gs.ancestors k).isSome) ∧
  ∀ k l, alookup gs.ancestors k = some l →
    ∃ ext, alookup gs2.ancestors k = some (l ++ ext) ∧ (ext ≠ [] → l ≠ [])

/-- Two root nodes `a`, `b` and no edges (two pushes on the empty store). -/
def gsTwoRoots : GraphStack String := ⟨["a", "b"], [(0, []), (1, [])]⟩

/-- `gsTwoRoots` after `add_ancestors(0, [1])`: the former root `a` gained
ancestor `b`. -/
def gsRootExt : GraphStack String := ⟨["a", "b"], [(0, [1]), (1, [])]⟩

/-- One node `a` listing itself as ancestor: a cycle, creatable through
`add_ancestors(0, [0])` which performs no cycle check. -/
def gsCyc : GraphStack String := ⟨["a"], [(0, [0])]⟩

/-- Roots `a`, `b` and a node `c` with ancestor `a` (pushed with `[0]`). -/
def gsChainC : GraphStack String := ⟨["a", "b", "c"], [(0, []), (1, []), (2, [0])]⟩

/-- `gsChainC` after `add_ancestors(2, [1])`: `c` now has ancestors `a, b`. -/
def gsChainCExt : GraphStack String := ⟨["a", "b", "c"], [(0, []), (1, []), (2, [0, 1])]⟩

/-- C1: for the store built by inserting `a..h` with no ancestors and then
extending `b←a`, `c←b`, `d←b`, `e←c,d`, `f←e`, `g←d,f`, `h←g`, the
enumerator `paths_from(h)` yields exactly `[h,g,d,b,a]`,
`[h,g,f,e,c,b,a]`, `[h,g,f,e,d,b,a]`, in that order, and is then
exhausted (`collectPaths` returns `some` only after observing `done`). -/
theorem c1_demo_paths :
    demoStore.map (fun p => pathsFromN p.1 p.2 20 10) =
      Except.ok (some [["h", "g", "d", "b", "a"],
                       ["h", "g", "f", "e", "c", "b", "a"],
                       ["h", "g", "f", "e", "d", "b", "a"]]) := by
  rfl

/-! ## Association-list lemmas -/


theorem alookup_ainsert (m : List (Nat × List Nat)) (k : Nat) (v : List Nat) (key : Nat) :
    alookup (ainsert m k v) key = if k = key then some v else alookup m key := by
  induction m with
  | nil => simp [ainsert, alookup]
  | cons kv rest ih =>
    obtain ⟨k0, v0⟩ := kv
    by_cases h0 : k0 = k
    · subst h0
      by_cases h1 : k0 = key <;> simp [ainsert, alookup, h1]
    · simp only [ainsert, if_neg h0]
      by_cases h1 : k0 = key
      · subst h1
        have hk : ¬ k = k0 := fun h => h0 h.symm
        simp [alookup, if_neg hk]
      · simp [alookup, if_neg h1, ih]

theorem alookup_aextendEntry_self (m : List (Nat × List Nat)) (k : Nat) (xs l : List Nat)
    (h : alookup m k = some l) :
    alookup (aextendEntry m k xs) k = some (l ++ xs) := by
  induction m with
  | nil => simp [alookup] at h
  | cons kv rest ih =>
    obtain ⟨k0, v0⟩ := kv
    by_cases h0 : k0 = k
    · subst h0
      simp [alookup] at h
      subst h
      simp [aextendEntry, alookup]
    · simp [alookup, if_neg h0] at h
      simp [aextendEntry, if_neg h0, alookup, if_neg h0, ih h]

theorem alookup_aextendEntry_ne (m : List (Nat × List Nat)) (k : Nat) (xs : List Nat)
    (key : Nat) (h : k ≠ key) :
    alookup (aextendEntry m k xs) key = alookup m key := by
  induction m with
  | nil => simp [aextendEntry, alookup, if_neg h]
  | cons kv rest ih =>
    obtain ⟨k0, v0⟩ := kv
    by_cases h0 : k0 = k
    · subst h0
      simp [aextendEntry, alookup, if_neg h, ih]
    · simp [aextendEntry, if_neg h0, alookup, ih]

theorem isSome_alookup_aextendEntry (m : List (Nat × List Nat)) (k : Nat) (xs : List Nat)
    (key : Nat) (hk : (alookup m k).isSome) :
    (alookup (aextendEntry m k xs) key).isSome = (alookup m key).isSome := by
  by_cases h : k = key
  · subst h
    obtain ⟨l, hl⟩ := Option.isSome_iff_exists.mp hk
    rw [alookup_aextendEntry_self m k xs l hl, hl]
    rfl
  · rw [alookup_aextendEntry_ne m k xs key h]

/-! ## Store operation specifications -/

theorem push_spec_aux {T : Type} (gs : GraphStack T) (v : T) (ancs : List Nat) :
    (gs.push v ancs = Except.error GSError.invalidAncestor ↔
      ∃ a ∈ ancs, gs.items.length ≤ a) ∧
    (∀ e, gs.push v ancs = Except.error e → e = GSError.invalidAncestor) ∧
    (∀ gs2 id, gs.push v ancs = Except.ok (gs2, id) →
      id = gs.items.length ∧
      gs2.items = gs.items ++ [v] ∧
      gs2.items.length = gs.items.length + 1 ∧
      alookup gs2.ancestors id = some ancs ∧
      ∀ k, k ≠ id → alookup gs2.ancestors k = alookup gs.ancestors k) ∧
    ((∀ a ∈ ancs, a < gs.items.length) →
      ∃ gs2, gs.push v ancs = Except.ok (gs2, gs.items.length)) := by
  have hlen : (gs.items ++ [v]).length - 1 = gs.items.length := by simp
  by_cases h : ancs.any (fun a => decide (gs.items.length ≤ a)) = true
  · have hex : ∃ a ∈ ancs, gs.items.length ≤ a := by simpa using h
    refine ⟨by simp [GraphStack.push, h, hex], ?_, ?_, ?_⟩
    · intro e he
      simp [GraphStack.push, h] at he
      exact he.symm
    · intro gs2 id hok
      simp [GraphStack.push, h] at hok
    · intro hall
      obtain ⟨a, ha, hge⟩ := hex
      exact absurd (hall a ha) (by omega)
  · have hnex : ¬ ∃ a ∈ ancs, gs.items.length ≤ a := by simpa using h
    refine ⟨by simp [GraphStack.push, h, hnex], ?_, ?_, ?_⟩
    · intro e he
      simp [GraphStack.push, h] at he
    · intro gs2 id hok
      simp only [GraphStack.push, h, Bool.false_eq_true, if_false] at hok
      rw [hlen] at hok
      have hp := Except.ok.inj hok
      have h1 : (⟨gs.items ++ [v], ainsert gs.ancestors gs.items.length ancs⟩ : GraphStack T)
          = gs2 := congrArg Prod.fst hp
      have h2 : gs.items.length = id := congrArg Prod.snd hp
      subst h2
      subst h1
      refine ⟨rfl, rfl, by simp, ?_, ?_⟩
      · simp [alookup_ainsert]
      · intro k hk
        rw [alookup_ainsert, if_neg (fun hh => hk hh.symm)]
    · intro hall
      refine ⟨⟨gs.items ++ [v], ainsert gs.ancestors gs.items.length ancs⟩, ?_⟩
      simp only [GraphStack.push, h, Bool.false_eq_true, if_false]
      rw [hlen]

/-- C2: `push` fails with `invalidAncestor` exactly when some supplied
ancestor id is at least the current node count; otherwise it succeeds,
returns the id equal to the node count before the call, appends exactly
one node holding the value, records the supplied list as the new node's
ancestor list, and leaves all other ancestor entries unchanged. -/
theorem c2_push_spec {T : Type} (gs : GraphStack T) (v : T) (ancs : List Nat) :
    (gs.push v ancs = Except.error GSError.invalidAncestor ↔
      ∃ a ∈ ancs, gs.items.length ≤ a) ∧
    (∀ e, gs.push v ancs = Except.error e → e = GSError.invalidAncestor) ∧
    (∀ gs2 id, gs.push v ancs = Except.ok (gs2, id) →
      id = gs.items.length ∧
      gs2.items = gs.items ++ [v] ∧
      gs2.items.length = gs.items.length + 1 ∧
      alookup gs2.ancestors id = some ancs ∧
      ∀ k, k ≠ id → alookup gs2.ancestors k = alookup gs.ancestors k) ∧
    ((∀ a ∈ ancs, a < gs.items.length) →
      ∃ gs2, gs.push v ancs = Except.ok (gs2, gs.items.length)) :=
  push_spec_aux gs v ancs

/-- C2 witness: pushing into the empty store succeeds with id 0. -/
theorem c2_push_spec_witness :
    ∃ gs2, (GraphStack.new : GraphStack Nat).push 5 [] = Except.ok (gs2, 0) :=
  (c2_push_spec (GraphStack.new : GraphStack Nat) 5 []).2.2.2 (by simp)

/-- C3: under the store invariant, `add_ancestors` fails with
`invalidNodeId` exactly when the node id is not a valid item id; on
success it appends the supplied ids after the existing ancestor entries,
leaves every other entry and the items untouched, and succeeds for any
supplied ancestor ids whatsoever (no validation of their existence). -/
theorem c3_add_ancestors_spec {T : Type} (gs : GraphStack T) (id : Nat) (ancs : List Nat)
    (hinv : InvGS gs) :
    (gs.add_ancestors id ancs = Except.error GSError.invalidNodeId ↔
      gs.items.length ≤ id) ∧
    (∀ e, gs.add_ancestors id ancs = Except.error e → e = GSError.invalidNodeId) ∧
    (∀ gs2, gs.add_ancestors id ancs = Except.ok gs2 →
      gs2.items = gs.items ∧
      (∀ l, alookup gs.ancestors id = some l →
        alookup gs2.ancestors id = some (l ++ ancs)) ∧
      (∀ k, k ≠ id → alookup gs2.ancestors k = alookup gs.ancestors k)) ∧
    (id < gs.items.length → ∃ gs2, gs.add_ancestors id ancs = Except.ok gs2) := by
  by_cases h : (alookup gs.ancestors id).isSome
  · have hid : id < gs.items.length := (hinv id).mp h
    refine ⟨iff_of_false (by simp [GraphStack.add_ancestors, h]) (by omega), ?_, ?_, ?_⟩
    · intro e he
      simp [GraphStack.add_ancestors, h] at he
    · intro gs2 hok
      simp [GraphStack.add_ancestors, h] at hok
      subst hok
      refine ⟨rfl, ?_, ?_⟩
      · intro l hl
        exact alookup_aextendEntry_self gs.ancestors id ancs l hl
      · intro k hk
        exact alookup_aextendEntry_ne gs.ancestors id ancs k (fun hh => hk hh.symm)
    · intro _
      exact ⟨⟨gs.items, aextendEntry gs.ancestors id ancs⟩,
        by simp [GraphStack.add_ancestors, h]⟩
  · have hid : ¬ id < gs.items.length := fun hlt => h ((hinv id).mpr hlt)
    refine ⟨iff_of_true (by simp [GraphStack.add_ancestors, h]) (by omega), ?_, ?_, ?_⟩
    · intro e he
      simp [GraphStack.add_ancestors, h] at he
      exact he.symm
    · intro gs2 hok
      simp [GraphStack.add_ancestors, h] at hok
    · intro hlt
      exact absurd hlt hid

/-- C3 witness: extending node 0 of a one-node store with the nonexistent
ancestor id 42 succeeds (no validation of supplied ancestors). -/
theorem c3_add_ancestors_spec_witness :
    ∃ gs2, (⟨[5], [(0, [])]⟩ : GraphStack Nat).add_ancestors 0 [42] = Except.ok gs2 :=
  (c3_add_ancestors_spec (⟨[5], [(0, [])]⟩ : GraphStack Nat) 0 [42]
    (by
      intro k
      cases k with
      | zero => simp [alookup]
      | succ n => simp [alookup])).2.2.2 (by simp)

/-- C10: the ancestor-list mapping has an entry for an id exactly when the
id is a valid item index: this holds for the empty store and is preserved
by `push` and by `add_ancestors`; consequently, under the invariant, the
membership check of `add_ancestors` coincides with index validity and the
ancestor list of any valid id can always be looked up. -/
theorem c10_inv_preserved {T : Type} :
    InvGS (GraphStack.new : GraphStack T) ∧
    (∀ (gs : GraphStack T) (v : T) (ancs : List Nat) (gs2 : GraphStack T) (id : Nat),
      InvGS gs → gs.push v ancs = Except.ok (gs2, id) → InvGS gs2) ∧
    (∀ (gs : GraphStack T) (id : Nat) (ancs : List Nat) (gs2 : GraphStack T),
      InvGS gs → gs.add_ancestors id ancs = Except.ok gs2 → InvGS gs2) ∧
    (∀ gs : GraphStack T, InvGS gs → ∀ i : Nat,
      ((alookup gs.ancestors i).isSome ↔ i < gs.items.length) ∧
      (i < gs.items.length → ∃ l, alookup gs.ancestors i = some l)) := by
  refine ⟨?_, ?_, ?_, ?_⟩
  · intro k
    simp [GraphStack.new, alookup]
  · intro gs v ancs gs2 id hinv hok
    have hspec := (push_spec_aux gs v ancs).2.2.1 gs2 id hok
    obtain ⟨hid, hitems, hlen2, hself, hother⟩ := hspec
    intro k
    rw [hlen2]
    by_cases hk : k = id
    · subst hk
      rw [hself]
      simp
      omega
    · rw [hother k hk]
      rw [hinv k]
      omega
  · intro gs id ancs gs2 hinv hok
    simp only [GraphStack.add_ancestors] at hok
    by_cases h : (alookup gs.ancestors id).isSome
    · simp [h] at hok
      subst hok
      intro k
      simp only
      rw [isSome_alookup_aextendEntry gs.ancestors id ancs k h]
      exact hinv k
    · simp [h] at hok
  · intro gs hinv i
    refine ⟨hinv i, ?_⟩
    intro hi
    exact Option.isSome_iff_exists.mp ((hinv i).mpr hi)

/-- C10 witness: the invariant holds for a store built by one push. -/
theorem c10_inv_preserved_witness : InvGS (⟨[5], [(0, [])]⟩ : GraphStack Nat) :=
  (@c10_inv_preserved Nat).2.1 GraphStack.new 5 [] ⟨[5], [(0, [])]⟩ 0
    (@c10_inv_preserved Nat).1 rfl

/-- C4 counterexample: on the empty store, id 0 does not exist, and
`stacks 0` fails with the out-of-bounds index panic of
`&gs.items[start_item]`, not with a typed `InvalidNodeId` failure. -/
theorem c4_counterexample :
    (GraphStack.new : GraphStack Nat).stacks 0 = Except.error GSError.indexOutOfBounds ∧
    GSError.indexOutOfBounds ≠ GSError.invalidNodeId :=
  ⟨rfl, by decide⟩

/-- C4 amended: `paths_from(start_id)` fails exactly when `start_id` does
not exist (`start_id ≥` node count), but the failure is the out-of-bounds
read of `gs.items[start_item]` (an index panic), not a typed
`InvalidNodeId` error; for an existing `start_id` it succeeds. -/
theorem c4_stacks_oob {T : Type} (gs : GraphStack T) (start : Nat) :
    (gs.stacks start = Except.error GSError.indexOutOfBounds ↔
      gs.items.length ≤ start) ∧
    (∀ e, gs.stacks start = Except.error e → e = GSError.indexOutOfBounds) ∧
    (start < gs.items.length →
      ∃ s, gs.stacks start = Except.ok s ∧ s.gs = gs ∧ s.cursors = [⟨start, 0⟩]) := by
  cases hget : gs.items.get? start with
  | none =>
    have hlen : gs.items.length ≤ start := List.get?_eq_none.mp hget
    have hs : gs.stacks start = Except.error GSError.indexOutOfBounds := by
      unfold GraphStack.stacks
      rw [hget]
    refine ⟨iff_of_true hs hlen, ?_, ?_⟩
    · intro e he
      rw [hs] at he
      exact (Except.error.inj he).symm
    · intro hlt
      omega
  | some v =>
    have hlt : start < gs.items.length := by
      by_contra hge
      rw [List.get?_eq_none.mpr (by omega)] at hget
      exact Option.noConfusion hget
    have hs : gs.stacks start = Except.ok ⟨[⟨start, 0⟩], [v], gs⟩ := by
      unfold GraphStack.stacks
      rw [hget]
    refine ⟨iff_of_false (by simp [hs]) (by omega), ?_, ?_⟩
    · intro e he
      rw [hs] at he
      exact Except.noConfusion he
    · intro _
      exact ⟨⟨[⟨start, 0⟩], [v], gs⟩, hs, rfl, rfl⟩

/-- C4 witness: on a one-node store, `stacks 0` succeeds. -/
theorem c4_stacks_oob_witness :
    ∃ s, (⟨[5], [(0, [])]⟩ : GraphStack Nat).stacks 0 = Except.ok s ∧
      s.gs = (⟨[5], [(0, [])]⟩ : GraphStack Nat) ∧ s.cursors = [⟨0, 0⟩] :=
  (c4_stacks_oob (⟨[5], [(0, [])]⟩ : GraphStack Nat) 0).2.2 (by simp)

/-! ## Fuel monotonicity and determinism of the enumerator -/

theorem descend_mono {T : Type} (gs : GraphStack T) :
    ∀ f g cs un, f ≤ g → descend gs f cs un ≠ DescendR.diverge →
      descend gs g cs un = descend gs f cs un := by
  intro f
  induction f with
  | zero =>
    intro g cs un _ hnd
    exact absurd rfl hnd
  | succ f ih =>
    intro g cs un hle hnd
    obtain ⟨g, rfl⟩ : ∃ g2, g = g2 + 1 := ⟨g - 1, by omega⟩
    match cs with
    | [] => simp [descend]
    | c :: rest =>
      have hnd2 := hnd
      simp only [descend] at hnd2 ⊢
      cases halook : alookup gs.ancestors c.item with
      | none => rfl
      | some l =>
        rw [halook] at hnd2
        by_cases hemp : l.isEmpty
        · simp [hemp]
        · simp only [hemp, Bool.false_eq_true, if_false] at hnd2 ⊢
          cases hga : l.get? c.ancestor with
          | none => rfl
          | some prev =>
            rw [hga] at hnd2
            dsimp only at hnd2 ⊢
            cases hgi : gs.items.get? prev with
            | none => rfl
            | some v =>
              rw [hgi] at hnd2
              dsimp only at hnd2 ⊢
              exact ih g _ _ (by omega) hnd2

theorem next_mono {T : Type} (s : Stacks T) (f g : Nat) (hle : f ≤ g)
    (hnd : s.next f ≠ NextR.diverge) : s.next g = s.next f := by
  by_cases hemp : s.cursors.isEmpty = true
  · unfold Stacks.next
    rw [if_pos hemp, if_pos hemp]
  · have hd : descend s.gs f s.cursors s.unstack ≠ DescendR.diverge := by
      intro h
      apply hnd
      unfold Stacks.next
      rw [if_neg hemp, h]
    unfold Stacks.next
    rw [if_neg hemp, if_neg hemp, descend_mono s.gs f g s.cursors s.unstack hle hd]

theorem collectPaths_fuel_mono {T : Type} (f g : Nat) (hle : f ≤ g) :
    ∀ steps (s : Stacks T) l, collectPaths f steps s = some l →
      collectPaths g steps s = some l := by
  intro steps
  induction steps with
  | zero =>
    intro s l h
    simp [collectPaths] at h
  | succ steps ih =>
    intro s l h
    simp only [collectPaths] at h ⊢
    cases hn : s.next f with
    | done =>
      rw [next_mono s f g hle (by rw [hn]; intro hh; exact NextR.noConfusion hh), hn]
      rw [hn] at h
      exact h
    | emit p s2 =>
      rw [next_mono s f g hle (by rw [hn]; intro hh; exact NextR.noConfusion hh), hn]
      rw [hn] at h
      simp only [Option.map_eq_some'] at h ⊢
      obtain ⟨l2, hl2, rfl⟩ := h
      exact ⟨l2, ih s2 l2 hl2, rfl⟩
    | panicked =>
      rw [hn] at h
      exact Option.noConfusion h
    | diverge =>
      rw [hn] at h
      exact Option.noConfusion h

theorem collectPaths_steps_mono {T : Type} (fuel : Nat) :
    ∀ st1 st2 (s : Stacks T) l, st1 ≤ st2 →
      collectPaths fuel st1 s = some l → collectPaths fuel st2 s = some l := by
  intro st1
  induction st1 with
  | zero =>
    intro st2 s l _ h
    simp [collectPaths] at h
  | succ st1 ih =>
    intro st2 s l hle h
    obtain ⟨st2, rfl⟩ : ∃ st3, st2 = st3 + 1 := ⟨st2 - 1, by omega⟩
    simp only [collectPaths] at h ⊢
    cases hn : s.next fuel with
    | done =>
      rw [hn] at h
      exact h
    | emit p s2 =>
      rw [hn] at h
      simp only [Option.map_eq_some'] at h ⊢
      obtain ⟨l2, hl2, rfl⟩ := h
      exact ⟨l2, ih st2 s2 l2 (by omega) hl2, rfl⟩
    | panicked =>
      rw [hn] at h
      exact Option.noConfusion h
    | diverge =>
      rw [hn] at h
      exact Option.noConfusion h

/-- Any two complete runs of the enumerator over the same store and start
agree, whatever fuel and step budgets produced them. -/
theorem pathsFromN_unique {T : Type} (gs : GraphStack T) (start f1 st1 f2 st2 : Nat)
    (l1 l2 : List (List T))
    (h1 : pathsFromN gs start f1 st1 = some l1)
    (h2 : pathsFromN gs start f2 st2 = some l2) : l1 = l2 := by
  unfold pathsFromN at h1 h2
  cases hs : gs.stacks start with
  | error e =>
    rw [hs] at h1
    exact Option.noConfusion h1
  | ok s =>
    rw [hs] at h1 h2
    have h1a := collectPaths_fuel_mono f1 (max f1 f2) (le_max_left _ _) st1 s l1 h1
    have h1b := collectPaths_steps_mono (max f1 f2) st1 (max st1 st2) s l1
      (le_max_left _ _) h1a
    have h2a := collectPaths_fuel_mono f2 (max f1 f2) (le_max_right _ _) st2 s l2 h2
    have h2b := collectPaths_steps_mono (max f1 f2) st2 (max st1 st2) s l2
      (le_max_right _ _) h2a
    rw [h1b] at h2b
    exact Option.some.inj h2b

/-- C6: the traversal is deterministic and restartable: any two complete
enumerations obtained by calling `paths_from(start)` on the same
unmodified store yield the identical sequence of paths in identical
order, independently of the fuel/step budgets of the two runs. -/
theorem c6_deterministic {T : Type} (gs : GraphStack T) (start f1 st1 f2 st2 : Nat)
    (l1 l2 : List (List T))
    (h1 : pathsFromN gs start f1 st1 = some l1)
    (h2 : pathsFromN gs start f2 st2 = some l2) : l1 = l2 :=
  pathsFromN_unique gs start f1 st1 f2 st2 l1 l2 h1 h2

/-- C6 witness: two runs with different budgets on a one-node store. -/
theorem c6_deterministic_witness : ([[5]] : List (List Nat)) = [[5]] :=
  c6_deterministic (⟨[5], [(0, [])]⟩ : GraphStack Nat) 0 3 3 9 7 [[5]] [[5]] rfl rfl

/-! ## Declarative path semantics: basic lemmas -/

theorem valsOf_length {T : Type} (gs : GraphStack T) :
    ∀ cs un, valsOf gs cs = some un → un.length = cs.length := by
  intro cs
  induction cs with
  | nil =>
    intro un h
    simp [valsOf] at h
    simp [← h]
  | cons c rest ih =>
    intro un h
    unfold valsOf at h
    cases hv : gs.items.get? c.item with
    | none => rw [hv] at h; simp at h
    | some v =>
      rw [hv] at h
      cases hr : valsOf gs rest with
      | none => rw [hr] at h; simp at h
      | some vs =>
        rw [hr] at h
        simp at h
        rw [← h]
        simp [ih vs hr]

theorem pathsBelow_succ_eq {T : Type} (gs : GraphStack T) (F n i : Nat) (v : T)
    (l : List Nat) (hv : gs.items.get? n = some v)
    (hl : alookup gs.ancestors n = some l) :
    pathsBelow gs (F + 1) n i =
      (if l.isEmpty then some (if i = 0 then [[v]] else [])
       else
        match seqChildren (fun a => pathsBelow gs F a 0) (l.drop i) with
        | some ps => some (ps.map (fun p => v :: p))
        | none => none) := by
  conv_lhs => unfold pathsBelow
  rw [hv, hl]

theorem pathsBelow_some_inv {T : Type} (gs : GraphStack T) (F n i : Nat)
    (ps : List (List T)) (h : pathsBelow gs F n i = some ps) :
    1 ≤ F ∧ ∃ v l, gs.items.get? n = some v ∧ alookup gs.ancestors n = some l := by
  match F with
  | 0 => exact absurd h (by simp [pathsBelow])
  | F + 1 =>
    refine ⟨by omega, ?_⟩
    unfold pathsBelow at h
    cases hv : gs.items.get? n with
    | none =>
      rw [hv] at h
      cases hal : alookup gs.ancestors n <;> rw [hal] at h <;> simp at h
    | some v =>
      cases hal : alookup gs.ancestors n with
      | none => rw [hv, hal] at h; simp at h
      | some l => exact ⟨v, l, rfl, rfl⟩

theorem pathsBelow_root {T : Type} (gs : GraphStack T) (F n i : Nat) (v : T)
    (hv : gs.items.get? n = some v) (hl : alookup gs.ancestors n = some []) :
    pathsBelow gs (F + 1) n i = some (if i = 0 then [[v]] else []) := by
  rw [pathsBelow_succ_eq gs F n i v [] hv hl]
  simp

theorem pathsBelow_out {T : Type} (gs : GraphStack T) (F n i : Nat) (v : T)
    (l : List Nat) (hv : gs.items.get? n = some v)
    (hl : alookup gs.ancestors n = some l) (hne : l ≠ [])
    (hge : l.length ≤ i) : pathsBelow gs (F + 1) n i = some [] := by
  rw [pathsBelow_succ_eq gs F n i v l hv hl]
  have hemp : l.isEmpty = false := by
    cases l with
    | nil => exact absurd rfl hne
    | cons a l0 => rfl
  rw [hemp]
  rw [List.drop_eq_nil_of_le hge]
  simp [seqChildren]

theorem pathsBelow_some_out {T : Type} (gs : GraphStack T) (F n i : Nat)
    (ps : List (List T)) (l : List Nat) (h : pathsBelow gs F n i = some ps)
    (hl : alookup gs.ancestors n = some l) (hge : l.length ≤ i) (hi : i ≠ 0) :
    ps = [] := by
  obtain ⟨hF, v, l2, hv, hl2⟩ := pathsBelow_some_inv gs F n i ps h
  rw [hl] at hl2
  obtain rfl : l = l2 := Option.some.inj hl2
  obtain ⟨F, rfl⟩ : ∃ F2, F = F2 + 1 := ⟨F - 1, by omega⟩
  cases hlc : l with
  | nil =>
    subst hlc
    rw [pathsBelow_root gs F n i v hv hl, if_neg hi] at h
    exact (Option.some.inj h).symm
  | cons a l0 =>
    rw [pathsBelow_out gs F n i v l hv hl (by rw [hlc]; intro hh; exact List.noConfusion hh) hge] at h
    exact (Option.some.inj h).symm

theorem seqChildren_cons {T : Type} (f : Nat → Option (List (List T))) (a : Nat)
    (rest : List Nat) :
    seqChildren f (a :: rest) =
      match f a, seqChildren f rest with
      | some ps, some qs => some (ps ++ qs)
      | _, _ => none := rfl

theorem seqChildren_congr {T : Type} (f g : Nat → Option (List (List T))) :
    ∀ (as : List Nat) r, (∀ a ∈ as, ∀ x, f a = some x → g a = some x) →
      seqChildren f as = some r → seqChildren g as = some r := by
  intro as
  induction as with
  | nil =>
    intro r _ h
    simpa [seqChildren] using h
  | cons a rest ih =>
    intro r hpt h
    rw [seqChildren_cons] at h ⊢
    cases hfa : f a with
    | none =>
      rw [hfa] at h
      cases hsc : seqChildren f rest <;> rw [hsc] at h <;> simp at h
    | some ps =>
      rw [hfa] at h
      cases hsc : seqChildren f rest with
      | none => rw [hsc] at h; simp at h
      | some qs =>
        rw [hsc] at h
        rw [hpt a (by simp) ps hfa,
          ih qs (fun a2 ha2 x hx => hpt a2 (by simp [ha2]) x hx) hsc]
        exact h

theorem isEmpty_false_of_ne_nil {α : Type} (l : List α) (hne : l ≠ []) :
    l.isEmpty = false := by
  cases l with
  | nil => exact absurd rfl hne
  | cons a l0 => rfl

theorem pathsBelow_split_some {T : Type} (gs : GraphStack T) (F n i : Nat) (v : T)
    (l : List Nat) (a : Nat) (ps : List (List T))
    (hv : gs.items.get? n = some v) (hl : alookup gs.ancestors n = some l)
    (ha : l.get? i = some a) (h : pathsBelow gs (F + 1) n i = some ps) :
    ∃ psa ps2, pathsBelow gs F a 0 = some psa ∧
      pathsBelow gs (F + 1) n (i + 1) = some ps2 ∧
      ps = psa.map (fun p => v :: p) ++ ps2 := by
  obtain ⟨hlt, hget⟩ := List.get?_eq_some.mp ha
  have hne : l ≠ [] := by
    intro hh
    subst hh
    simp at hlt
  have hemp : l.isEmpty = false := isEmpty_false_of_ne_nil l hne
  have hdrop : l.drop i = a :: l.drop (i + 1) := by
    rw [List.drop_eq_get_cons hlt, hget]
  rw [pathsBelow_succ_eq gs F n i v l hv hl, hemp] at h
  simp only [Bool.false_eq_true, if_false] at h
  rw [hdrop, seqChildren_cons] at h
  cases h1 : pathsBelow gs F a 0 with
  | none =>
    rw [h1] at h
    cases hsc : seqChildren (fun a2 => pathsBelow gs F a2 0) (l.drop (i + 1)) <;>
      rw [hsc] at h <;> simp at h
  | some psa =>
    rw [h1] at h
    cases hsc : seqChildren (fun a2 => pathsBelow gs F a2 0) (l.drop (i + 1)) with
    | none => rw [hsc] at h; simp at h
    | some qs =>
      rw [hsc] at h
      dsimp only at h
      refine ⟨psa, qs.map (fun p => v :: p), rfl, ?_, ?_⟩
      · rw [pathsBelow_succ_eq gs F n (i + 1) v l hv hl, hemp]
        simp only [Bool.false_eq_true, if_false]
        rw [hsc]
      · rw [← Option.some.inj h, List.map_append]

theorem pathsBelow_mono {T : Type} (gs : GraphStack T) :
    ∀ F G n i ps, F ≤ G → pathsBelow gs F n i = some ps →
      pathsBelow gs G n i = some ps := by
  intro F
  induction F with
  | zero =>
    intro G n i ps _ h
    simp [pathsBelow] at h
  | succ F ih =>
    intro G n i ps hle h
    obtain ⟨G, rfl⟩ : ∃ G2, G = G2 + 1 := ⟨G - 1, by omega⟩
    obtain ⟨_, v, l, hv, hl⟩ := pathsBelow_some_inv gs (F + 1) n i ps h
    rw [pathsBelow_succ_eq gs F n i v l hv hl] at h
    rw [pathsBelow_succ_eq gs G n i v l hv hl]
    by_cases hemp : l.isEmpty = true
    · rw [if_pos hemp] at h ⊢
      exact h
    · rw [if_neg hemp] at h ⊢
      cases hsc : seqChildren (fun a => pathsBelow gs F a 0) (l.drop i) with
      | none =>
        rw [hsc] at h
        exact Option.noConfusion h
      | some qs =>
        rw [hsc] at h
        rw [seqChildren_congr (fun a => pathsBelow gs F a 0) (fun a => pathsBelow gs G a 0)
          (l.drop i) qs (fun a _ x hx => ih G a 0 x (by omega) hx) hsc]
        exact h

theorem pathsBelow_zero_ne_nil {T : Type} (gs : GraphStack T) :
    ∀ F n ps, pathsBelow gs F n 0 = some ps → ps ≠ [] := by
  intro F
  induction F with
  | zero =>
    intro n ps h
    simp [pathsBelow] at h
  | succ F ih =>
    intro n ps h
    obtain ⟨_, v, l, hv, hl⟩ := pathsBelow_some_inv gs (F + 1) n 0 ps h
    cases hlc : l with
    | nil =>
      subst hlc
      rw [pathsBelow_root gs F n 0 v hv hl] at h
      simp at h
      rw [← h]
      simp
    | cons a l0 =>
      subst hlc
      obtain ⟨psa, ps2, h1, h2, rfl⟩ :=
        pathsBelow_split_some gs F n 0 v _ a ps hv hl rfl h
      intro hcontra
      obtain ⟨hc1, hc2⟩ := List.append_eq_nil.mp hcontra
      exact ih a psa h1 (List.map_eq_nil.mp hc1)

theorem pathsBelow_idx_ne_nil {T : Type} (gs : GraphStack T) (F n i : Nat)
    (l : List Nat) (ps : List (List T)) (h : pathsBelow gs F n i = some ps)
    (hl : alookup gs.ancestors n = some l) (hlt : i < l.length) : ps ≠ [] := by
  obtain ⟨hF, v, l2, hv, hl2⟩ := pathsBelow_some_inv gs F n i ps h
  rw [hl] at hl2
  obtain rfl : l = l2 := Option.some.inj hl2
  obtain ⟨F, rfl⟩ : ∃ F2, F = F2 + 1 := ⟨F - 1, by omega⟩
  have ha : l.get? i = some (l.get ⟨i, hlt⟩) := List.get?_eq_get hlt
  obtain ⟨psa, ps2, h1, h2, rfl⟩ :=
    pathsBelow_split_some gs F n i v l (l.get ⟨i, hlt⟩) ps hv hl ha h
  intro hcontra
  obtain ⟨hc1, hc2⟩ := List.append_eq_nil.mp hcontra
  exact pathsBelow_zero_ne_nil gs F (l.get ⟨i, hlt⟩) psa h1 (List.map_eq_nil.mp hc1)

/-! ## Relating the enumerator state machine to the declarative semantics -/

theorem valsOf_cons {T : Type} (gs : GraphStack T) (c : Cursor) (rest : List Cursor) :
    valsOf gs (c :: rest) =
      match gs.items.get? c.item, valsOf gs rest with
      | some v, some vs => some (v :: vs)
      | _, _ => none := rfl

theorem valsOf_cons_inv {T : Type} (gs : GraphStack T) (c : Cursor) (rest : List Cursor)
    (un : List T) (h : valsOf gs (c :: rest) = some un) :
    ∃ v vs, gs.items.get? c.item = some v ∧ valsOf gs rest = some vs ∧ un = v :: vs := by
  rw [valsOf_cons] at h
  cases hv : gs.items.get? c.item with
  | none =>
    rw [hv] at h
    cases hr : valsOf gs rest <;> rw [hr] at h <;> simp at h
  | some v =>
    rw [hv] at h
    cases hr : valsOf gs rest with
    | none => rw [hr] at h; simp at h
    | some vs =>
      rw [hr] at h
      exact ⟨v, vs, rfl, rfl, (Option.some.inj h).symm⟩

theorem remAdv_cons {T : Type} (gs : GraphStack T) (F : Nat) (c : Cursor)
    (rest : List Cursor) :
    remAdv gs F (c :: rest) =
      match pathsBelow gs F c.item (c.ancestor + 1), valsOf gs rest,
          remAdv gs F rest with
      | some ps, some vs, some qs => some (ps.map (fun p => vs.reverse ++ p) ++ qs)
      | _, _, _ => none := rfl

theorem remTot_cons {T : Type} (gs : GraphStack T) (F : Nat) (c : Cursor)
    (rest : List Cursor) :
    remTot gs F (c :: rest) =
      match pathsBelow gs F c.item c.ancestor, valsOf gs rest,
          remAdv gs F rest with
      | some ps, some vs, some qs => some (ps.map (fun p => vs.reverse ++ p) ++ qs)
      | _, _, _ => none := rfl

theorem remAdv_cons_inv {T : Type} (gs : GraphStack T) (F : Nat) (c : Cursor)
    (rest : List Cursor) (M : List (List T)) (h : remAdv gs F (c :: rest) = some M) :
    ∃ ps vs qs, pathsBelow gs F c.item (c.ancestor + 1) = some ps ∧
      valsOf gs rest = some vs ∧ remAdv gs F rest = some qs ∧
      M = ps.map (fun p => vs.reverse ++ p) ++ qs := by
  rw [remAdv_cons] at h
  cases h1 : pathsBelow gs F c.item (c.ancestor + 1) with
  | none =>
    rw [h1] at h
    cases h2 : valsOf gs rest <;> cases h3 : remAdv gs F rest <;>
      rw [h2, h3] at h <;> simp at h
  | some ps =>
    rw [h1] at h
    cases h2 : valsOf gs rest with
    | none =>
      cases h3 : remAdv gs F rest <;> rw [h2, h3] at h <;> simp at h
    | some vs =>
      rw [h2] at h
      cases h3 : remAdv gs F rest with
      | none => rw [h3] at h; simp at h
      | some qs =>
        rw [h3] at h
        exact ⟨ps, vs, qs, rfl, rfl, rfl, (Option.some.inj h).symm⟩

theorem remTot_cons_inv {T : Type} (gs : GraphStack T) (F : Nat) (c : Cursor)
    (rest : List Cursor) (M : List (List T)) (h : remTot gs F (c :: rest) = some M) :
    ∃ ps vs qs, pathsBelow gs F c.item c.ancestor = some ps ∧
      valsOf gs rest = some vs ∧ remAdv gs F rest = some qs ∧
      M = ps.map (fun p => vs.reverse ++ p) ++ qs := by
  rw [remTot_cons] at h
  cases h1 : pathsBelow gs F c.item c.ancestor with
  | none =>
    rw [h1] at h
    cases h2 : valsOf gs rest <;> cases h3 : remAdv gs F rest <;>
      rw [h2, h3] at h <;> simp at h
  | some ps =>
    rw [h1] at h
    cases h2 : valsOf gs rest with
    | none =>
      cases h3 : remAdv gs F rest <;> rw [h2, h3] at h <;> simp at h
    | some vs =>
      rw [h2] at h
      cases h3 : remAdv gs F rest with
      | none => rw [h3] at h; simp at h
      | some qs =>
        rw [h3] at h
        exact ⟨ps, vs, qs, rfl, rfl, rfl, (Option.some.inj h).symm⟩

/-- Pushing the currently selected ancestor as a fresh cursor preserves the
remaining-path list of the state (the descend loop's single-step
invariant). -/
theorem remTot_push {T : Type} (gs : GraphStack T) (G : Nat) (c : Cursor)
    (cs : List Cursor) (a : Nat) (l : List Nat)
    (hl : alookup gs.ancestors c.item = some l) (ha : l.get? c.ancestor = some a)
    (M : List (List T)) (h : remTot gs G (c :: cs) = some M) :
    remTot gs G (⟨a, 0⟩ :: c :: cs) = some M := by
  obtain ⟨ps, vs, qs, hps, hvs, hqs, rfl⟩ := remTot_cons_inv gs G c cs M h
  obtain ⟨hG, v, l2, hv, hl2⟩ := pathsBelow_some_inv gs G c.item c.ancestor ps hps
  rw [hl] at hl2
  obtain rfl : l = l2 := Option.some.inj hl2
  obtain ⟨G, rfl⟩ : ∃ G2, G = G2 + 1 := ⟨G - 1, by omega⟩
  obtain ⟨psa, ps2, h1, h2, rfl⟩ :=
    pathsBelow_split_some gs G c.item c.ancestor v l a ps hv hl ha hps
  have h1s : pathsBelow gs (G + 1) a 0 = some psa :=
    pathsBelow_mono gs G (G + 1) a 0 psa (by omega) h1
  rw [remTot_cons]
  have hitem : (⟨a, 0⟩ : Cursor).item = a := rfl
  have hanc : (⟨a, 0⟩ : Cursor).ancestor = 0 := rfl
  rw [hitem, hanc, h1s, valsOf_cons, hv, hvs, remAdv_cons, h2, hvs, hqs]
  dsimp only
  simp only [List.map_append, List.map_map, List.reverse_cons, List.append_assoc]
  have hfun : (fun p => vs.reverse ++ ([v] ++ p)) =
      ((fun p => vs.reverse ++ p) ∘ fun p : List T => v :: p) := by
    funext p
    simp [Function.comp]
  rw [hfun]

theorem descend_succ_cons {T : Type} (gs : GraphStack T) (F : Nat) (c : Cursor)
    (rest : List Cursor) (un : List T) :
    descend gs (F + 1) (c :: rest) un =
      match alookup gs.ancestors c.item with
      | none => DescendR.panicked
      | some l =>
        if l.isEmpty then DescendR.ok (c :: rest) un
        else
          match l.get? c.ancestor with
          | none => DescendR.panicked
          | some prev =>
            match gs.items.get? prev with
            | none => DescendR.panicked
            | some v => descend gs F (⟨prev, 0⟩ :: c :: rest) (v :: un) := rfl

/-- The descend loop, run from a state whose remaining paths are defined,
reaches a root cursor and preserves the value alignment and the
remaining-path list. -/
theorem descend_of_pathsBelow {T : Type} (gs : GraphStack T) :
    ∀ F (c : Cursor) (cs : List Cursor) (un : List T) (ps : List (List T)),
      pathsBelow gs F c.item c.ancestor = some ps →
      (∀ l, alookup gs.ancestors c.item = some l →
        (l = [] → c.ancestor = 0) ∧ (l ≠ [] → c.ancestor < l.length)) →
      ∃ (c2 : Cursor) (rest2 : List Cursor) (un2 : List T),
        descend gs F (c :: cs) un = DescendR.ok (c2 :: rest2) un2 ∧
        alookup gs.ancestors c2.item = some [] ∧ c2.ancestor = 0 ∧
        (valsOf gs (c :: cs) = some un → valsOf gs (c2 :: rest2) = some un2) ∧
        (∀ G M, F ≤ G → remTot gs G (c :: cs) = some M →
          remTot gs G (c2 :: rest2) = some M) := by
  intro F
  induction F with
  | zero =>
    intro c cs un ps hps _
    simp [pathsBelow] at hps
  | succ F ih =>
    intro c cs un ps hps htop
    obtain ⟨_, v, l, hv, hl⟩ := pathsBelow_some_inv gs (F + 1) c.item c.ancestor ps hps
    obtain ⟨hroot0, hlt⟩ := htop l hl
    cases hlc : l with
    | nil =>
      subst hlc
      refine ⟨c, cs, un, ?_, hl, hroot0 rfl, fun h => h, fun G M _ h => h⟩
      rw [descend_succ_cons, hl]
      rfl
    | cons a0 l0 =>
      have hne : l ≠ [] := by
        rw [hlc]
        intro hh
        exact List.noConfusion hh
      have hlt2 : c.ancestor < l.length := hlt hne
      have ha : l.get? c.ancestor = some (l.get ⟨c.ancestor, hlt2⟩) :=
        List.get?_eq_get hlt2
      obtain ⟨psa, ps2, h1, h2, rfl⟩ :=
        pathsBelow_split_some gs F c.item c.ancestor v l _ ps hv hl ha hps
      obtain ⟨_, va, la, hva, hla⟩ := pathsBelow_some_inv gs F _ 0 psa h1
      have htop2 : ∀ l2, alookup gs.ancestors (l.get ⟨c.ancestor, hlt2⟩) = some l2 →
          (l2 = [] → (0 : Nat) = 0) ∧ (l2 ≠ [] → 0 < l2.length) := by
        intro l2 _
        refine ⟨fun _ => rfl, fun hne => ?_⟩
        cases l2 with
        | nil => exact absurd rfl hne
        | cons x xs => simp
      obtain ⟨c2, rest2, un2, hd2, hc2l, hc2a, hval2, hrem2⟩ :=
        ih ⟨l.get ⟨c.ancestor, hlt2⟩, 0⟩ (c :: cs) (va :: un) psa h1 htop2
      refine ⟨c2, rest2, un2, ?_, hc2l, hc2a, ?_, ?_⟩
      · rw [descend_succ_cons, hl]
        dsimp only
        have hemp : l.isEmpty = false := isEmpty_false_of_ne_nil l hne
        rw [hemp]
        simp only [Bool.false_eq_true, if_false]
        rw [ha]
        dsimp only
        rw [hva]
        exact hd2
      · intro hun
        apply hval2
        rw [valsOf_cons]
        have : (⟨l.get ⟨c.ancestor, hlt2⟩, 0⟩ : Cursor).item = l.get ⟨c.ancestor, hlt2⟩ :=
          rfl
        rw [this, hva, hun]
      · intro G M hFG hM
        exact hrem2 G M (by omega) (remTot_push gs G c cs _ l hl ha M hM)

theorem advanceCursors_cons {T : Type} (gs : GraphStack T) (c : Cursor)
    (rest : List Cursor) :
    advanceCursors gs (c :: rest) =
      match alookup gs.ancestors c.item with
      | none => AdvR.panicked
      | some l =>
        if c.ancestor + 1 < l.length then AdvR.ok (⟨c.item, c.ancestor + 1⟩ :: rest)
        else advanceCursors gs rest := rfl

/-- The advance loop, run on a stack whose tail-remaining paths are
defined, succeeds and produces a state whose total remaining paths are
exactly those tail paths; alignment and top-validity are preserved. -/
theorem advance_remAdv {T : Type} (gs : GraphStack T) (F : Nat) :
    ∀ (cs : List Cursor) (Q : List (List T)), remAdv gs F cs = some Q →
      ∃ cs2, advanceCursors gs cs = AdvR.ok cs2 ∧
        remTot gs F cs2 = some Q ∧
        cs2.length ≤ cs.length ∧
        (∀ un, valsOf gs cs = some un →
          valsOf gs cs2 = some (un.drop (un.length - cs2.length))) ∧
        TopOK gs cs2 := by
  intro cs
  induction cs with
  | nil =>
    intro Q h
    have hQ : Q = [] := by
      rw [show remAdv gs F ([] : List Cursor) = some [] from rfl] at h
      exact (Option.some.inj h).symm
    subst hQ
    refine ⟨[], rfl, rfl, by simp, ?_, trivial⟩
    intro un hun
    rw [show valsOf gs ([] : List Cursor) = some [] from rfl] at hun
    obtain rfl : un = [] := (Option.some.inj hun).symm
    rfl
  | cons c rest ih =>
    intro Q h
    obtain ⟨ps, vs, qs, hps, hvs, hqs, rfl⟩ := remAdv_cons_inv gs F c rest Q h
    obtain ⟨hF, v, l, hv, hl⟩ := pathsBelow_some_inv gs F c.item (c.ancestor + 1) ps hps
    by_cases hcase : c.ancestor + 1 < l.length
    · refine ⟨⟨c.item, c.ancestor + 1⟩ :: rest, ?_, ?_, by simp, ?_, ?_⟩
      · rw [advanceCursors_cons, hl]
        dsimp only
        rw [if_pos hcase]
      · rw [remTot_cons]
        have h1 : (⟨c.item, c.ancestor + 1⟩ : Cursor).item = c.item := rfl
        have h2 : (⟨c.item, c.ancestor + 1⟩ : Cursor).ancestor = c.ancestor + 1 := rfl
        rw [h1, h2, hps, hvs, hqs]
      · intro un hun
        obtain ⟨v2, vs2, hv2, hvs2, rfl⟩ := valsOf_cons_inv gs c rest un hun
        have hlen : vs2.length = rest.length := valsOf_length gs rest vs2 hvs2
        rw [valsOf_cons]
        have h1 : (⟨c.item, c.ancestor + 1⟩ : Cursor).item = c.item := rfl
        rw [h1, hv2, hvs2]
        dsimp only
        have : (v2 :: vs2).length - (rest.length + 1) = 0 := by
          simp
          omega
        rw [show (⟨c.item, c.ancestor + 1⟩ :: rest : List Cursor).length
            = rest.length + 1 from rfl, this]
        rfl
      · refine ⟨l, hl, ?_, fun _ => hcase⟩
        intro hl0
        subst hl0
        simp at hcase
    · have hps_nil : ps = [] :=
        pathsBelow_some_out gs F c.item (c.ancestor + 1) ps l hps hl (by omega) (by omega)
      subst hps_nil
      obtain ⟨cs2, hadv, hrem, hlen, hvals, htop⟩ := ih qs hqs
      refine ⟨cs2, ?_, ?_, ?_, ?_, htop⟩
      · rw [advanceCursors_cons, hl]
        dsimp only
        rw [if_neg hcase]
        exact hadv
      · simpa using hrem
      · simp
        omega
      · intro un hun
        obtain ⟨v2, vs2, hv2, hvs2, rfl⟩ := valsOf_cons_inv gs c rest un hun
        have hres := hvals vs2 hvs2
        have hlen2 : vs2.length = rest.length := valsOf_length gs rest vs2 hvs2
        have hstep : (v2 :: vs2).length - cs2.length = (vs2.length - cs2.length) + 1 := by
          simp
          omega
        rw [hstep, List.drop_succ_cons]
        exact hres

/-- One `next` call on a well-formed state with remaining paths `p :: L`
emits exactly `p` and leaves a well-formed state with remaining paths `L`. -/
theorem step_emit {T : Type} (gs : GraphStack T) (F : Nat) (s : Stacks T)
    (p : List T) (L : List (List T)) (hgs : s.gs = gs)
    (hal : valsOf gs s.cursors = some s.unstack)
    (htop : TopOK gs s.cursors) (hne : s.cursors ≠ [])
    (hrem : remTot gs F s.cursors = some (p :: L)) :
    ∃ s2, s.next F = NextR.emit p s2 ∧ s2.gs = gs ∧
      valsOf gs s2.cursors = some s2.unstack ∧ TopOK gs s2.cursors ∧
      remTot gs F s2.cursors = some L := by
  obtain ⟨c, rest, hcs⟩ : ∃ c rest, s.cursors = c :: rest := by
    cases hc : s.cursors with
    | nil => exact absurd hc hne
    | cons c rest => exact ⟨c, rest, rfl⟩
  rw [hcs] at hal htop hrem
  obtain ⟨ps, vs, qs, hps, hvs, hqs, hM⟩ := remTot_cons_inv gs F c rest (p :: L) hrem
  have htopall : ∀ l, alookup gs.ancestors c.item = some l →
      (l = [] → c.ancestor = 0) ∧ (l ≠ [] → c.ancestor < l.length) := by
    intro l hl
    obtain ⟨l0, hl0, h1, h2⟩ := htop
    rw [hl0] at hl
    obtain rfl : l0 = l := Option.some.inj hl
    exact ⟨h1, h2⟩
  obtain ⟨c2, rest2, un2, hd, hc2l, hc2a, hval2, hrem2⟩ :=
    descend_of_pathsBelow gs F c rest s.unstack ps hps htopall
  have hun2 : valsOf gs (c2 :: rest2) = some un2 := hval2 hal
  have hrem2b : remTot gs F (c2 :: rest2) = some (p :: L) := hrem2 F (p :: L) le_rfl hrem
  obtain ⟨v2, vs2, hv2, hvs2, hun2eq⟩ := valsOf_cons_inv gs c2 rest2 un2 hun2
  have hF : 1 ≤ F := (pathsBelow_some_inv gs F c.item c.ancestor ps hps).1
  obtain ⟨F2, rfl⟩ : ∃ F2, F = F2 + 1 := ⟨F - 1, by omega⟩
  obtain ⟨ps2, vs2b, qs2, hps2, hvs2b, hqs2, hM2⟩ :=
    remTot_cons_inv gs (F2 + 1) c2 rest2 (p :: L) hrem2b
  have hroot : pathsBelow gs (F2 + 1) c2.item c2.ancestor = some [[v2]] := by
    rw [hc2a, pathsBelow_root gs F2 c2.item 0 v2 hv2 hc2l]
    simp
  rw [hroot] at hps2
  obtain rfl : ps2 = [[v2]] := (Option.some.inj hps2).symm
  rw [hvs2] at hvs2b
  obtain rfl : vs2b = vs2 := (Option.some.inj hvs2b).symm
  have hp : p = vs2b.reverse ++ [v2] := by
    have := hM2
    simp at this
    exact this.1
  have hL : L = qs2 := by
    have := hM2
    simp at this
    exact this.2
  subst hL
  have hadvlist : remAdv gs (F2 + 1) (c2 :: rest2) = some L := by
    rw [remAdv_cons, hc2a, pathsBelow_root gs F2 c2.item 1 v2 hv2 hc2l, hvs2, hqs2]
    simp
  obtain ⟨cs3, hadv, hrem3, hlen3, hvals3, htop3⟩ :=
    advance_remAdv gs (F2 + 1) (c2 :: rest2) L hadvlist
  refine ⟨⟨cs3, un2.drop (un2.length - cs3.length), gs⟩, ?_, rfl, ?_, htop3, hrem3⟩
  · unfold Stacks.next
    rw [hcs, hgs]
    have hempty : (c :: rest).isEmpty = false := rfl
    rw [hempty]
    simp only [Bool.false_eq_true, if_false]
    rw [hd]
    dsimp only
    rw [hadv]
    dsimp only
    have hsnap : un2.reverse = p := by
      rw [hun2eq, hp]
      simp
    rw [hsnap]
  · exact hvals3 un2 hun2

theorem collectPaths_succ {T : Type} (F steps : Nat) (s : Stacks T) :
    collectPaths F (steps + 1) s =
      match s.next F with
      | NextR.done => some []
      | NextR.emit p s2 => (collectPaths F steps s2).map (fun l => p :: l)
      | _ => none := rfl

/-- Running the enumerator from a well-formed state whose remaining-path
list is `L` emits exactly `L` and then reports exhaustion. -/
theorem collect_of_remTot {T : Type} (gs : GraphStack T) (F : Nat) :
    ∀ (L : List (List T)) (s : Stacks T), s.gs = gs →
      valsOf gs s.cursors = some s.unstack → TopOK gs s.cursors →
      remTot gs F s.cursors = some L →
      collectPaths F (L.length + 1) s = some L := by
  intro L
  induction L with
  | nil =>
    intro s hgs hal htop hrem
    cases hc : s.cursors with
    | cons c rest =>
      rw [hc] at hrem htop
      obtain ⟨ps, vs, qs, hps, hvs, hqs, hM⟩ := remTot_cons_inv gs F c rest [] hrem
      have hps_ne : ps ≠ [] := by
        obtain ⟨l, hl, h1, h2⟩ := htop
        by_cases hl0 : l = []
        · subst hl0
          rw [h1 rfl] at hps
          exact pathsBelow_zero_ne_nil gs F c.item ps hps
        · exact pathsBelow_idx_ne_nil gs F c.item c.ancestor l ps hps hl (h2 hl0)
      obtain ⟨hm, _⟩ := List.append_eq_nil.mp hM.symm
      exact absurd (List.map_eq_nil.mp hm) hps_ne
    | nil =>
      have hnext : s.next F = NextR.done := by
        unfold Stacks.next
        rw [hc]
        rfl
      simp [collectPaths, hnext]
  | cons p L ih =>
    intro s hgs hal htop hrem
    have hne : s.cursors ≠ [] := by
      intro hc
      rw [hc, show remTot gs F ([] : List Cursor) = some [] from rfl] at hrem
      exact List.noConfusion (Option.some.inj hrem)
    obtain ⟨s2, hnext, hgs2, hal2, htop2, hrem2⟩ :=
      step_emit gs F s p L hgs hal htop hne hrem
    have hih := ih s2 hgs2 hal2 htop2 hrem2
    show collectPaths F ((p :: L).length + 1) s = some (p :: L)
    rw [show (p :: L).length + 1 = (L.length + 1) + 1 from by simp]
    rw [collectPaths_succ F (L.length + 1) s, hnext]
    dsimp only
    rw [hih]
    rfl

/-- Soundness of the declarative semantics for the enumerator: when the
declarative path list from `start` is defined at some fuel, the enumerator
over `paths_from(start)` produces exactly that list and then exhausts. -/
theorem pathsFromN_of_pathsBelow {T : Type} (gs : GraphStack T) (start F : Nat)
    (L : List (List T)) (h : pathsBelow gs F start 0 = some L) :
    pathsFromN gs start F (L.length + 1) = some L := by
  obtain ⟨hF, v, l, hv, hl⟩ := pathsBelow_some_inv gs F start 0 L h
  have hstacks : gs.stacks start = Except.ok ⟨[⟨start, 0⟩], [v], gs⟩ := by
    unfold GraphStack.stacks
    rw [hv]
  unfold pathsFromN
  rw [hstacks]
  apply collect_of_remTot gs F L ⟨[⟨start, 0⟩], [v], gs⟩ rfl
  · rw [valsOf_cons]
    dsimp only
    rw [hv]
    rfl
  · refine ⟨l, hl, fun _ => rfl, fun hne => ?_⟩
    cases l with
    | nil => exact absurd rfl hne
    | cons x xs => simp
  · rw [remTot_cons]
    dsimp only
    rw [h, show valsOf gs ([] : List Cursor) = some [] from rfl,
      show remAdv gs F ([] : List Cursor) = some [] from rfl]
    dsimp only
    simp

/-- C5: for every existing node `n` whose ancestor list is empty,
`paths_from(n)` yields exactly one path containing only `n`'s value and is
then exhausted; moreover every complete run, whatever its budgets,
produces exactly that one path. -/
theorem c5_root_single_path {T : Type} (gs : GraphStack T) (n : Nat)
    (hl : alookup gs.ancestors n = some []) (hn : n < gs.items.length) :
    ∃ v, gs.items.get? n = some v ∧ pathsFromN gs n 1 2 = some [[v]] ∧
      ∀ f st l2, pathsFromN gs n f st = some l2 → l2 = [[v]] := by
  have hv : gs.items.get? n = some (gs.items.get ⟨n, hn⟩) := List.get?_eq_get hn
  set v := gs.items.get ⟨n, hn⟩ with hvdef
  have hpb : pathsBelow gs 1 n 0 = some [[v]] := by
    rw [pathsBelow_root gs 0 n 0 v hv hl]
    simp
  have hrun := pathsFromN_of_pathsBelow gs n 1 [[v]] hpb
  refine ⟨v, hv, hrun, ?_⟩
  intro f st l2 h2
  exact pathsFromN_unique gs n f st 1 2 l2 [[v]] h2 hrun

/-- C5 witness: the single-node store yields exactly its own value. -/
theorem c5_root_single_path_witness :
    ∃ v, (⟨["r"], [(0, [])]⟩ : GraphStack String).items.get? 0 = some v ∧
      pathsFromN (⟨["r"], [(0, [])]⟩ : GraphStack String) 0 1 2 = some [[v]] ∧
      ∀ f st l2, pathsFromN (⟨["r"], [(0, [])]⟩ : GraphStack String) 0 f st = some l2 →
        l2 = [[v]] :=
  c5_root_single_path (⟨["r"], [(0, [])]⟩ : GraphStack String) 0 rfl (by simp)

/-! ## Endpoint invariants of emitted paths -/

theorem descend_ok_inv {T : Type} (gs : GraphStack T) :
    ∀ F cs un cs2 un2, descend gs F cs un = DescendR.ok cs2 un2 →
      (valsOf gs cs = some un → valsOf gs cs2 = some un2) ∧
      (cs ≠ [] → cs2 ≠ [] ∧
        (cs2.getLast?).map Cursor.item = (cs.getLast?).map Cursor.item ∧
        ∃ c2 rest2, cs2 = c2 :: rest2 ∧ alookup gs.ancestors c2.item = some []) := by
  intro F
  induction F with
  | zero =>
    intro cs un cs2 un2 h
    simp [descend] at h
  | succ F ih =>
    intro cs un cs2 un2 h
    cases cs with
    | nil =>
      rw [show descend gs (F + 1) ([] : List Cursor) un = DescendR.ok [] un from rfl] at h
      obtain ⟨rfl, rfl⟩ : cs2 = [] ∧ un2 = un := by
        cases h
        exact ⟨rfl, rfl⟩
      exact ⟨fun hh => hh, fun hne => absurd rfl hne⟩
    | cons c rest =>
      rw [descend_succ_cons] at h
      cases halook : alookup gs.ancestors c.item with
      | none =>
        rw [halook] at h
        exact absurd h (by simp)
      | some l =>
        rw [halook] at h
        dsimp only at h
        by_cases hemp : l.isEmpty = true
        · rw [if_pos hemp] at h
          obtain ⟨rfl, rfl⟩ : cs2 = c :: rest ∧ un2 = un := by
            cases h
            exact ⟨rfl, rfl⟩
          have hl0 : l = [] := by
            cases l with
            | nil => rfl
            | cons x xs => simp at hemp
          subst hl0
          exact ⟨fun hh => hh, fun _ => ⟨by simp, rfl, c, rest, rfl, halook⟩⟩
        · rw [if_neg hemp] at h
          cases hga : l.get? c.ancestor with
          | none =>
            rw [hga] at h
            exact absurd h (by simp)
          | some a =>
            rw [hga] at h
            dsimp only at h
            cases hgi : gs.items.get? a with
            | none =>
              rw [hgi] at h
              exact absurd h (by simp)
            | some va =>
              rw [hgi] at h
              dsimp only at h
              obtain ⟨hval, hlast⟩ := ih (⟨a, 0⟩ :: c :: rest) (va :: un) cs2 un2 h
              refine ⟨?_, ?_⟩
              · intro hun
                apply hval
                rw [valsOf_cons]
                dsimp only
                rw [hgi, hun]
              · intro _
                obtain ⟨hne2, hlast2, hroot2⟩ :=
                  hlast (by intro hh; exact List.noConfusion hh)
                refine ⟨hne2, ?_, hroot2⟩
                rw [hlast2]
                rw [List.getLast?_cons_cons]

theorem advance_ok_inv {T : Type} (gs : GraphStack T) :
    ∀ cs cs2, advanceCursors gs cs = AdvR.ok cs2 →
      cs2.length ≤ cs.length ∧
      (∀ un, valsOf gs cs = some un →
        valsOf gs cs2 = some (un.drop (un.length - cs2.length))) ∧
      (cs2 ≠ [] → (cs2.getLast?).map Cursor.item = (cs.getLast?).map Cursor.item) := by
  intro cs
  induction cs with
  | nil =>
    intro cs2 h
    obtain rfl : cs2 = [] := by
      cases h
      rfl
    refine ⟨by simp, ?_, fun hne => absurd rfl hne⟩
    intro un hun
    rw [show valsOf gs ([] : List Cursor) = some [] from rfl] at hun
    obtain rfl : un = [] := (Option.some.inj hun).symm
    rfl
  | cons c rest ih =>
    intro cs2 h
    rw [advanceCursors_cons] at h
    cases halook : alookup gs.ancestors c.item with
    | none =>
      rw [halook] at h
      exact absurd h (by simp)
    | some l =>
      rw [halook] at h
      dsimp only at h
      by_cases hcase : c.ancestor + 1 < l.length
      · rw [if_pos hcase] at h
        obtain rfl : cs2 = ⟨c.item, c.ancestor + 1⟩ :: rest := by
          cases h
          rfl
        refine ⟨by simp, ?_, ?_⟩
        · intro un hun
          obtain ⟨v2, vs2, hv2, hvs2, rfl⟩ := valsOf_cons_inv gs c rest un hun
          have hlen : vs2.length = rest.length := valsOf_length gs rest vs2 hvs2
          rw [valsOf_cons]
          dsimp only
          rw [hv2, hvs2]
          have hz : (v2 :: vs2).length - (rest.length + 1) = 0 := by
            simp
            omega
          rw [show (⟨c.item, c.ancestor + 1⟩ :: rest : List Cursor).length
              = rest.length + 1 from rfl, hz]
          rfl
        · intro _
          cases rest with
          | nil => rfl
          | cons r1 rest1 => rw [List.getLast?_cons_cons, List.getLast?_cons_cons]
      · rw [if_neg hcase] at h
        obtain ⟨hlen, hvals, hlast⟩ := ih cs2 h
        refine ⟨by simp; omega, ?_, ?_⟩
        · intro un hun
          obtain ⟨v2, vs2, hv2, hvs2, rfl⟩ := valsOf_cons_inv gs c rest un hun
          have hres := hvals vs2 hvs2
          have hlen2 : vs2.length = rest.length := valsOf_length gs rest vs2 hvs2
          have hstep : (v2 :: vs2).length - cs2.length
              = (vs2.length - cs2.length) + 1 := by
            simp
            omega
          rw [hstep, List.drop_succ_cons]
          exact hres
        · intro hne
          rw [hlast hne]
          cases hr : rest with
          | nil =>
            subst hr
            obtain rfl : cs2 = [] := by
              cases h
              rfl
            exact absurd rfl hne
          | cons r1 rest1 =>
            subst hr
            rw [List.getLast?_cons_cons]

theorem next_emit_inv {T : Type} (s : Stacks T) (F : Nat) (p : List T) (s2 : Stacks T)
    (h : s.next F = NextR.emit p s2) :
    ∃ cs2 un2 cs3, descend s.gs F s.cursors s.unstack = DescendR.ok cs2 un2 ∧
      advanceCursors s.gs cs2 = AdvR.ok cs3 ∧ p = un2.reverse ∧
      s2 = ⟨cs3, un2.drop (un2.length - cs3.length), s.gs⟩ ∧ s.cursors ≠ [] := by
  unfold Stacks.next at h
  by_cases hemp : s.cursors.isEmpty = true
  · rw [if_pos hemp] at h
    exact absurd h (by simp)
  · rw [if_neg hemp] at h
    have hne : s.cursors ≠ [] := by
      intro hh
      apply hemp
      rw [hh]
      rfl
    cases hd : descend s.gs F s.cursors s.unstack with
    | diverge => rw [hd] at h; exact absurd h (by simp)
    | panicked => rw [hd] at h; exact absurd h (by simp)
    | ok cs2 un2 =>
      rw [hd] at h
      dsimp only at h
      cases ha : advanceCursors s.gs cs2 with
      | panicked => rw [ha] at h; exact absurd h (by simp)
      | ok cs3 =>
        rw [ha] at h
        dsimp only at h
        cases h
        exact ⟨cs2, un2, cs3, rfl, ha, rfl, rfl, hne⟩

theorem valsOf_getLast {T : Type} (gs : GraphStack T) :
    ∀ cs un c, valsOf gs cs = some un → cs.getLast? = some c →
      ∃ v, gs.items.get? c.item = some v ∧ un.getLast? = some v := by
  intro cs
  induction cs with
  | nil =>
    intro un c _ hlast
    simp at hlast
  | cons c0 rest ih =>
    intro un c hun hlast
    obtain ⟨v, vs, hv, hvs, rfl⟩ := valsOf_cons_inv gs c0 rest un hun
    cases rest with
    | nil =>
      obtain rfl : c = c0 := by
        simp at hlast
        exact hlast.symm
      rw [show valsOf gs ([] : List Cursor) = some [] from rfl] at hvs
      obtain rfl : vs = [] := (Option.some.inj hvs).symm
      exact ⟨v, hv, rfl⟩
    | cons r1 rest1 =>
      rw [List.getLast?_cons_cons] at hlast
      obtain ⟨v2, hv2, hvs2⟩ := ih vs c hvs hlast
      refine ⟨v2, hv2, ?_⟩
      obtain ⟨w, ws, hw, hws, rfl⟩ := valsOf_cons_inv gs r1 rest1 vs hvs
      rw [List.getLast?_cons_cons]
      exact hvs2

/-- Every path emitted during a run from a well-formed state whose bottom
cursor sits at `start` begins with `start`'s value and ends with the value
of some node whose ancestor list is empty. -/
theorem collect_endpoints {T : Type} (gs : GraphStack T) (start : Nat) :
    ∀ steps fuel (s : Stacks T) (L : List (List T)),
      s.gs = gs → valsOf gs s.cursors = some s.unstack →
      (s.cursors ≠ [] → (s.cursors.getLast?).map Cursor.item = some start) →
      collectPaths fuel steps s = some L →
      ∀ p ∈ L, (∃ v, gs.items.get? start = some v ∧ p.head? = some v) ∧
        (∃ r vr, alookup gs.ancestors r = some [] ∧ gs.items.get? r = some vr ∧
          p.getLast? = some vr) := by
  intro steps
  induction steps with
  | zero =>
    intro fuel s L _ _ _ hcol
    simp [collectPaths] at hcol
  | succ steps ih =>
    intro fuel s L hgs hal hstart hcol
    rw [collectPaths_succ] at hcol
    cases hn : s.next fuel with
    | done =>
      rw [hn] at hcol
      obtain rfl : L = [] := by
        simp at hcol
        exact hcol
      intro p hp
      simp at hp
    | panicked =>
      rw [hn] at hcol
      simp at hcol
    | diverge =>
      rw [hn] at hcol
      simp at hcol
    | emit p0 s2 =>
      rw [hn] at hcol
      dsimp only at hcol
      cases hc2 : collectPaths fuel steps s2 with
      | none => rw [hc2] at hcol; simp at hcol
      | some L2 =>
        rw [hc2] at hcol
        obtain rfl : L = p0 :: L2 := by
          simp at hcol
          exact hcol.symm
        obtain ⟨cs2, un2, cs3, hd, hadv, hp0, hs2, hne⟩ := next_emit_inv s fuel p0 s2 hn
        rw [hgs] at hd hadv
        obtain ⟨hdval, hdlast⟩ := descend_ok_inv gs fuel s.cursors s.unstack cs2 un2 hd
        have hun2 : valsOf gs cs2 = some un2 := hdval hal
        obtain ⟨hne2, hlasteq, c2, rest2, hcs2, hc2root⟩ := hdlast hne
        obtain ⟨hlen3, hvals3, hlast3⟩ := advance_ok_inv gs cs2 cs3 hadv
        have hstartlast : (cs2.getLast?).map Cursor.item = some start := by
          rw [hlasteq]
          exact hstart hne
        obtain ⟨cl, hcl, hclitem⟩ := Option.map_eq_some'.mp hstartlast
        obtain ⟨vb, hvb, hunlast⟩ := valsOf_getLast gs cs2 un2 cl hun2 hcl
        have hp0head : ∃ v, gs.items.get? start = some v ∧ p0.head? = some v := by
          refine ⟨vb, ?_, ?_⟩
          · rw [← hclitem]
            exact hvb
          · rw [hp0, List.head?_reverse]
            exact hunlast
        have hp0last : ∃ r vr, alookup gs.ancestors r = some [] ∧
            gs.items.get? r = some vr ∧ p0.getLast? = some vr := by
          rw [hcs2] at hun2
          obtain ⟨v2, vs2, hv2, hvs2, rfl⟩ := valsOf_cons_inv gs c2 rest2 un2 hun2
          refine ⟨c2.item, v2, hc2root, hv2, ?_⟩
          rw [hp0, List.getLast?_reverse]
          rfl
        have hih : ∀ p ∈ L2, (∃ v, gs.items.get? start = some v ∧ p.head? = some v) ∧
            (∃ r vr, alookup gs.ancestors r = some [] ∧ gs.items.get? r = some vr ∧
              p.getLast? = some vr) := by
          apply ih fuel s2 L2 ?_ ?_ ?_ hc2
          · rw [hs2]
            exact hgs
          · rw [hs2]
            dsimp only
            exact hvals3 un2 hun2
          · rw [hs2]
            dsimp only
            intro hne3
            rw [hlast3 hne3]
            exact hstartlast
        intro p hp
        cases List.mem_cons.mp hp with
        | inl hpe =>
          subst hpe
          exact ⟨hp0head, hp0last⟩
        | inr hpm => exact hih p hpm

/-- C8: every path yielded by `paths_from(start)` begins with the value of
`start` and ends with the value of some node whose ancestor list is empty
(a root). -/
theorem c8_path_endpoints {T : Type} (gs : GraphStack T) (start fuel steps : Nat)
    (L : List (List T)) (h : pathsFromN gs start fuel steps = some L) :
    ∀ p ∈ L, (∃ v, gs.items.get? start = some v ∧ p.head? = some v) ∧
      (∃ r vr, alookup gs.ancestors r = some [] ∧ gs.items.get? r = some vr ∧
        p.getLast? = some vr) := by
  unfold pathsFromN at h
  cases hs : gs.stacks start with
  | error e =>
    rw [hs] at h
    exact absurd h (by simp)
  | ok s =>
    rw [hs] at h
    unfold GraphStack.stacks at hs
    have hsv : ∃ v, gs.items.get? start = some v ∧ s = ⟨[⟨start, 0⟩], [v], gs⟩ := by
      cases hv : gs.items.get? start with
      | none =>
        rw [hv] at hs
        exact absurd hs (by simp)
      | some v =>
        rw [hv] at hs
        exact ⟨v, rfl, (Except.ok.inj hs).symm⟩
    obtain ⟨v, hv, rfl⟩ := hsv
    apply collect_endpoints gs start steps fuel _ L rfl ?_ ?_ h
    · rw [valsOf_cons]
      dsimp only
      rw [hv]
      rfl
    · intro _
      rfl

/-- C8 witness: the single path from node 0 of the two-root store starts
and ends at the root value `a`. -/
theorem c8_path_endpoints_witness :
    (∃ v, gsTwoRoots.items.get? 0 = some v ∧ (["a"] : List String).head? = some v) ∧
    (∃ r vr, alookup gsTwoRoots.ancestors r = some [] ∧
      gsTwoRoots.items.get? r = some vr ∧ (["a"] : List String).getLast? = some vr) :=
  c8_path_endpoints gsTwoRoots 0 5 5 [["a"]] rfl ["a"] (by simp)

/-! ## Termination on acyclic stores, divergence on cyclic ones -/

theorem seqChildren_all_some {T : Type} (f : Nat → Option (List (List T))) :
    ∀ (as : List Nat), (∀ a ∈ as, ∃ r, f a = some r) →
      ∃ r, seqChildren f as = some r := by
  intro as
  induction as with
  | nil => exact fun _ => ⟨[], rfl⟩
  | cons a rest ih =>
    intro hall
    obtain ⟨ra, hra⟩ := hall a (by simp)
    obtain ⟨rr, hrr⟩ := ih (fun a2 ha2 => hall a2 (by simp [ha2]))
    refine ⟨ra ++ rr, ?_⟩
    rw [seqChildren_cons, hra, hrr]

theorem pathsBelow_uniform_fuel {T : Type} (gs : GraphStack T) :
    ∀ (as : List Nat), (∀ a ∈ as, ∃ F ps, pathsBelow gs F a 0 = some ps) →
      ∃ F, ∀ a ∈ as, ∃ ps, pathsBelow gs F a 0 = some ps := by
  intro as
  induction as with
  | nil => exact fun _ => ⟨0, by simp⟩
  | cons a rest ih =>
    intro hall
    obtain ⟨Fa, psa, hFa⟩ := hall a (by simp)
    obtain ⟨Fr, hFr⟩ := ih (fun a2 ha2 => hall a2 (by simp [ha2]))
    refine ⟨max Fa Fr, ?_⟩
    intro a2 ha2
    cases List.mem_cons.mp ha2 with
    | inl he =>
      subst he
      exact ⟨psa, pathsBelow_mono gs Fa (max Fa Fr) a2 0 psa (le_max_left _ _) hFa⟩
    | inr hm =>
      obtain ⟨ps2, hps2⟩ := hFr a2 hm
      exact ⟨ps2, pathsBelow_mono gs Fr (max Fa Fr) a2 0 ps2 (le_max_right _ _) hps2⟩

/-- On a store satisfying the invariants, the declarative path list of any
accessible node is defined at some fuel. -/
theorem pathsBelow_total_acc {T : Type} (gs : GraphStack T) (hinv : InvGS gs)
    (hval : ValidAnc gs) :
    ∀ n, Acc (ancEdge gs) n → n < gs.items.length →
      ∃ F ps, pathsBelow gs F n 0 = some ps := by
  intro n hacc
  induction hacc with
  | intro n hsub ih =>
    intro hn
    have hv : gs.items.get? n = some (gs.items.get ⟨n, hn⟩) := List.get?_eq_get hn
    obtain ⟨l, hl⟩ := Option.isSome_iff_exists.mp ((hinv n).mpr hn)
    cases hlc : l with
    | nil =>
      subst hlc
      exact ⟨1, [[gs.items.get ⟨n, hn⟩]], by rw [pathsBelow_root gs 0 n 0 _ hv hl]; simp⟩
    | cons a0 l0 =>
      have hall : ∀ a ∈ l, ∃ F ps, pathsBelow gs F a 0 = some ps := by
        intro a ha
        exact ih a ⟨l, hl, ha⟩ (hval n l hl a ha)
      obtain ⟨F, hF⟩ := pathsBelow_uniform_fuel gs l hall
      obtain ⟨r, hr⟩ := seqChildren_all_some (fun a => pathsBelow gs F a 0) l
        (fun a ha => hF a ha)
      refine ⟨F + 1, r.map (fun p => gs.items.get ⟨n, hn⟩ :: p), ?_⟩
      rw [pathsBelow_succ_eq gs F n 0 _ l hv hl]
      have hemp : l.isEmpty = false := by
        rw [hlc]
        rfl
      rw [hemp]
      simp only [Bool.false_eq_true, if_false, List.drop_zero]
      rw [hr]

theorem reaches_of_transGen_fin {T : Type} (gs : GraphStack T) (C : Nat)
    (x y : Fin C)
    (h : Relation.TransGen (fun a b : Fin C => ancEdge gs a.val b.val) x y) :
    ReachesGS gs x.val y.val := by
  induction h with
  | single h1 => exact Relation.TransGen.single h1
  | tail h1 h2 ih => exact Relation.TransGen.tail ih h2

/-- On a finite store whose ancestor relation is acyclic and valid, every
node is accessible along ancestor links. -/
theorem acc_of_acyclic {T : Type} (gs : GraphStack T) (hinv : InvGS gs)
    (hval : ValidAnc gs) (hacy : AcyclicGS gs) : ∀ n, Acc (ancEdge gs) n := by
  have hirr : IsIrrefl (Fin gs.items.length)
      (Relation.TransGen (fun a b : Fin gs.items.length => ancEdge gs a.val b.val)) := by
    constructor
    intro x hx
    exact hacy x.val (reaches_of_transGen_fin gs gs.items.length x x hx)
  have hwfT : WellFounded
      (Relation.TransGen (fun a b : Fin gs.items.length => ancEdge gs a.val b.val)) :=
    Finite.wellFounded_of_trans_of_irrefl _
  have hsubrel : Subrelation (fun a b : Fin gs.items.length => ancEdge gs a.val b.val)
      (Relation.TransGen (fun a b : Fin gs.items.length => ancEdge gs a.val b.val)) :=
    fun hh => Relation.TransGen.single hh
  have hwf : WellFounded (fun a b : Fin gs.items.length => ancEdge gs a.val b.val) :=
    Subrelation.wf hsubrel hwfT
  have hfin : ∀ x : Fin gs.items.length, Acc (ancEdge gs) x.val := by
    intro x
    induction x using WellFounded.induction hwf with
    | _ x ih =>
      constructor
      intro a ha
      have haC : a < gs.items.length := by
        obtain ⟨l, hl, hal⟩ := ha
        exact hval x.val l hl a hal
      exact ih ⟨a, haC⟩ ha
  intro n
  by_cases hn : n < gs.items.length
  · exact hfin ⟨n, hn⟩
  · constructor
    intro a ha
    obtain ⟨l, hl, _⟩ := ha
    have : (alookup gs.ancestors n).isSome := by
      rw [hl]
      rfl
    exact absurd ((hinv n).mp this) hn

/-- Establish acyclicity from a rank function that strictly decreases
along ancestor links. -/
theorem acyclicGS_of_rank {T : Type} (gs : GraphStack T) (rank : Nat → Nat)
    (hr : ∀ a b, ancEdge gs a b → rank a < rank b) : AcyclicGS gs := by
  have hmono : ∀ a b, ReachesGS gs a b → rank a < rank b := by
    intro a b h
    induction h with
    | single h1 => exact hr _ _ h1
    | tail h1 h2 ih => exact lt_trans ih (hr _ _ h2)
  intro n h
  exact lt_irrefl _ (hmono n n h)

/-- The descend loop never terminates on the self-loop store, whatever the
fuel. -/
theorem descend_gsCyc_diverges :
    ∀ fuel (cs : List Cursor) (un : List String),
      descend gsCyc fuel (⟨0, 0⟩ :: cs) un = DescendR.diverge := by
  intro fuel
  induction fuel with
  | zero => intro cs un; rfl
  | succ fuel ih =>
    intro cs un
    rw [descend_succ_cons]
    have h1 : alookup gsCyc.ancestors (⟨0, 0⟩ : Cursor).item = some [0] := rfl
    rw [h1]
    dsimp only
    exact ih (⟨0, 0⟩ :: cs) ("a" :: un)

theorem alookup_isSome_mem (m : List (Nat × List Nat)) (k : Nat)
    (h : (alookup m k).isSome = true) : k ∈ m.map Prod.fst := by
  induction m with
  | nil => simp [alookup] at h
  | cons kv rest ih =>
    obtain ⟨k0, v0⟩ := kv
    by_cases he : k0 = k
    · simp [he]
    · rw [show alookup ((k0, v0) :: rest) k = alookup rest k from by
        simp [alookup, if_neg he]] at h
      simp [ih h]

theorem invGS_gsTwoRoots : InvGS gsTwoRoots := by
  intro k
  constructor
  · intro h
    have hm := alookup_isSome_mem gsTwoRoots.ancestors k h
    simp [gsTwoRoots] at hm
    show k < 2
    omega
  · intro h
    rcases k with _ | _ | k
    · rfl
    · rfl
    · exfalso
      have h2 : k + 2 < 2 := h
      omega

theorem validAnc_gsTwoRoots : ValidAnc gsTwoRoots := by
  intro k l hl a ha
  have hm := alookup_isSome_mem gsTwoRoots.ancestors k (by rw [hl]; rfl)
  simp [gsTwoRoots] at hm
  rcases hm with rfl | rfl
  · rw [show alookup gsTwoRoots.ancestors 0 = some [] from rfl] at hl
    obtain rfl : [] = l := Option.some.inj hl
    simp at ha
  · rw [show alookup gsTwoRoots.ancestors 1 = some [] from rfl] at hl
    obtain rfl : [] = l := Option.some.inj hl
    simp at ha

theorem acyclic_gsTwoRoots : AcyclicGS gsTwoRoots := by
  apply acyclicGS_of_rank gsTwoRoots id
  intro a b hab
  obtain ⟨l, hl, ha⟩ := hab
  exfalso
  have hm := alookup_isSome_mem gsTwoRoots.ancestors b (by rw [hl]; rfl)
  simp [gsTwoRoots] at hm
  rcases hm with rfl | rfl
  · rw [show alookup gsTwoRoots.ancestors 0 = some [] from rfl] at hl
    obtain rfl : [] = l := Option.some.inj hl
    simp at ha
  · rw [show alookup gsTwoRoots.ancestors 1 = some [] from rfl] at hl
    obtain rfl : [] = l := Option.some.inj hl
    simp at ha

/-- C9: on every store whose ancestor relation is acyclic, whose ancestor
lists hold only existing node ids, and whose ancestor map covers exactly
the existing nodes, the enumeration from any existing start completes (so
each `next` call terminates and the path sequence is finite); and on the
cyclic one-node store (built through `push` then `add_ancestors(0,[0])`)
the first `next` call diverges at every fuel: the descend loop never
terminates. -/
theorem c9_termination :
    (∀ (T : Type) (gs : GraphStack T) (start : Nat), InvGS gs → ValidAnc gs →
      AcyclicGS gs → start < gs.items.length →
      ∃ fuel steps L, pathsFromN gs start fuel steps = some L) ∧
    ((GraphStack.new : GraphStack String).push "a" [] =
        Except.ok (⟨["a"], [(0, [])]⟩, 0) ∧
      (⟨["a"], [(0, [])]⟩ : GraphStack String).add_ancestors 0 [0] = Except.ok gsCyc ∧
      ∀ fuel, firstNext gsCyc 0 fuel = some (NextR.diverge : NextR String)) := by
  constructor
  · intro T gs start hinv hval hacy hstart
    obtain ⟨F, L, hF⟩ := pathsBelow_total_acc gs hinv hval start
      (acc_of_acyclic gs hinv hval hacy start) hstart
    exact ⟨F, L.length + 1, L, pathsFromN_of_pathsBelow gs start F L hF⟩
  · refine ⟨rfl, rfl, ?_⟩
    intro fuel
    unfold firstNext
    rw [show gsCyc.stacks 0 = Except.ok ⟨[⟨0, 0⟩], ["a"], gsCyc⟩ from rfl]
    have hnext : (⟨[⟨0, 0⟩], ["a"], gsCyc⟩ : Stacks String).next fuel = NextR.diverge := by
      unfold Stacks.next
      rw [show ([⟨0, 0⟩] : List Cursor).isEmpty = false from rfl]
      simp only [Bool.false_eq_true, if_false]
      rw [descend_gsCyc_diverges fuel [] ["a"]]
    dsimp only
    rw [hnext]

/-- C9 witness: the acyclic two-root store enumerates completely. -/
theorem c9_termination_witness :
    ∃ fuel steps L, pathsFromN gsTwoRoots 0 fuel steps = some L :=
  c9_termination.1 String gsTwoRoots 0 invGS_gsTwoRoots validAnc_gsTwoRoots
    acyclic_gsTwoRoots (by simp [gsTwoRoots])

/-! ## Monotonicity under ancestor-list extension -/

theorem stacks_ok_lt {T : Type} (gs : GraphStack T) (start : Nat) (s : Stacks T)
    (h : gs.stacks start = Except.ok s) : start < gs.items.length := by
  unfold GraphStack.stacks at h
  cases hv : gs.items.get? start with
  | none =>
    rw [hv] at h
    exact absurd h (by simp)
  | some v =>
    by_contra hge
    rw [List.get?_eq_none.mpr (by omega)] at hv
    exact Option.noConfusion hv

theorem pathsFromN_some_start_lt {T : Type} (gs : GraphStack T) (start f st : Nat)
    (L : List (List T)) (h : pathsFromN gs start f st = some L) :
    start < gs.items.length := by
  unfold pathsFromN at h
  cases hs : gs.stacks start with
  | error e =>
    rw [hs] at h
    exact absurd h (by simp)
  | ok s => exact stacks_ok_lt gs start s hs

theorem extendsGS_of_add {T : Type} (gs gs2 : GraphStack T) (m : Nat) (new : List Nat)
    (hok : gs.add_ancestors m new = Except.ok gs2)
    (hm : ∀ lm, alookup gs.ancestors m = some lm → lm ≠ []) :
    ExtendsGS gs gs2 := by
  unfold GraphStack.add_ancestors at hok
  by_cases h : (alookup gs.ancestors m).isSome
  · rw [if_pos h] at hok
    obtain rfl : gs2 = ⟨gs.items, aextendEntry gs.ancestors m new⟩ :=
      (Except.ok.inj hok).symm
    refine ⟨rfl, ?_, ?_⟩
    · intro k
      exact isSome_alookup_aextendEntry gs.ancestors m new k h
    · intro k l hl
      by_cases hk : k = m
      · subst hk
        exact ⟨new, alookup_aextendEntry_self gs.ancestors k new l hl,
          fun _ => hm l hl⟩
      · refine ⟨[], ?_, fun hne => absurd rfl hne⟩
        rw [List.append_nil,
          alookup_aextendEntry_ne gs.ancestors m new k (fun hh => hk hh.symm)]
        exact hl
  · rw [if_neg h] at hok
    exact absurd hok (by simp)

theorem invGS_of_extends {T : Type} (gs gs2 : GraphStack T) (hext : ExtendsGS gs gs2)
    (hinv : InvGS gs2) : InvGS gs := by
  obtain ⟨hitems, hdom, _⟩ := hext
  intro k
  have hk := hinv k
  rw [hitems] at hk
  rw [← hdom k]
  exact hk

theorem validAnc_of_extends {T : Type} (gs gs2 : GraphStack T) (hext : ExtendsGS gs gs2)
    (hval : ValidAnc gs2) : ValidAnc gs := by
  obtain ⟨hitems, _, hpre⟩ := hext
  intro k l hl a ha
  obtain ⟨ext, hl2, _⟩ := hpre k l hl
  have := hval k (l ++ ext) hl2 a (List.mem_append_left ext ha)
  rw [hitems] at this
  exact this

theorem acyclic_of_extends {T : Type} (gs gs2 : GraphStack T) (hext : ExtendsGS gs gs2)
    (hacy : AcyclicGS gs2) : AcyclicGS gs := by
  obtain ⟨_, _, hpre⟩ := hext
  intro n h
  apply hacy n
  refine Relation.TransGen.mono ?_ h
  intro a b hab
  obtain ⟨l, hl, ha⟩ := hab
  obtain ⟨ext, hl2, _⟩ := hpre b l hl
  exact ⟨l ++ ext, hl2, List.mem_append_left ext ha⟩

/-- Extending ancestor lists (only of non-root nodes) can only add paths:
every declarative path list of the original store is a sublist of the
extended store's, in order. -/
theorem pathsBelow_sublist_of_extends {T : Type} (gs gs2 : GraphStack T)
    (hext : ExtendsGS gs gs2) :
    ∀ F G n i ps ps2, pathsBelow gs F n i = some ps →
      pathsBelow gs2 G n i = some ps2 → ps.Sublist ps2 := by
  obtain ⟨hitems, hdom, hpre⟩ := hext
  intro F
  induction F with
  | zero =>
    intro G n i ps ps2 h1 _
    simp [pathsBelow] at h1
  | succ F ih =>
    intro G n i ps ps2 h1 h2
    obtain ⟨_, v, l, hv, hl⟩ := pathsBelow_some_inv gs (F + 1) n i ps h1
    obtain ⟨ext, hl2, hcond⟩ := hpre n l hl
    have hv2 : gs2.items.get? n = some v := by
      rw [hitems]
      exact hv
    have hG : 1 ≤ G := (pathsBelow_some_inv gs2 G n i ps2 h2).1
    obtain ⟨G, rfl⟩ : ∃ G2, G = G2 + 1 := ⟨G - 1, by omega⟩
    by_cases hlnil : l = []
    · subst hlnil
      have hextnil : ext = [] := by
        by_contra hne
        exact (hcond hne) rfl
      subst hextnil
      rw [pathsBelow_root gs F n i v hv hl] at h1
      rw [pathsBelow_root gs2 G n i v hv2 (by simpa using hl2)] at h2
      rw [← Option.some.inj h1, ← Option.some.inj h2]
    · have hl1 : 1 ≤ l.length := by
        cases l with
        | nil => exact absurd rfl hlnil
        | cons x xs => simp
      have inner : ∀ d i ps ps2, (l ++ ext).length - i ≤ d →
          pathsBelow gs (F + 1) n i = some ps →
          pathsBelow gs2 (G + 1) n i = some ps2 → ps.Sublist ps2 := by
        intro d
        induction d with
        | zero =>
          intro i ps ps2 hd h1b h2b
          rw [List.length_append] at hd
          have hge : l.length ≤ i := by omega
          have hips : ps = [] :=
            pathsBelow_some_out gs (F + 1) n i ps l h1b hl hge (by omega)
          subst hips
          exact List.nil_sublist ps2
        | succ d ihd =>
          intro i ps ps2 hd h1b h2b
          by_cases hil : i < l.length
          · have ha : l.get? i = some (l.get ⟨i, hil⟩) := List.get?_eq_get hil
            have ha2 : (l ++ ext).get? i = some (l.get ⟨i, hil⟩) := by
              rw [List.get?_append hil]
              exact ha
            obtain ⟨psa, psr, hpsa, hpsr, rfl⟩ :=
              pathsBelow_split_some gs F n i v l _ ps hv hl ha h1b
            obtain ⟨psa2, psr2, hpsa2, hpsr2, rfl⟩ :=
              pathsBelow_split_some gs2 G n i v (l ++ ext) _ ps2 hv2 hl2 ha2 h2b
            have hsub1 : psa.Sublist psa2 := ih G _ 0 psa psa2 hpsa hpsa2
            have hsub2 : psr.Sublist psr2 := by
              apply ihd (i + 1) psr psr2 ?_ hpsr hpsr2
              rw [List.length_append] at hd ⊢
              omega
            exact List.Sublist.append (List.Sublist.map _ hsub1) hsub2
          · have hips : ps = [] :=
              pathsBelow_some_out gs (F + 1) n i ps l h1b hl (by omega) (by omega)
            subst hips
            exact List.nil_sublist ps2
      exact inner ((l ++ ext).length) i ps ps2 (by omega) h1 h2

theorem invGS_gsChainCExt : InvGS gsChainCExt := by
  intro k
  constructor
  · intro h
    have hm := alookup_isSome_mem gsChainCExt.ancestors k h
    simp [gsChainCExt] at hm
    show k < 3
    omega
  · intro h
    rcases k with _ | _ | _ | k
    · rfl
    · rfl
    · rfl
    · exfalso
      have h2 : k + 3 < 3 := h
      omega

theorem validAnc_gsChainCExt : ValidAnc gsChainCExt := by
  intro k l hl a ha
  have hm := alookup_isSome_mem gsChainCExt.ancestors k (by rw [hl]; rfl)
  simp [gsChainCExt] at hm
  show a < 3
  rcases hm with rfl | rfl | rfl
  · rw [show alookup gsChainCExt.ancestors 0 = some [] from rfl] at hl
    obtain rfl : [] = l := Option.some.inj hl
    simp at ha
  · rw [show alookup gsChainCExt.ancestors 1 = some [] from rfl] at hl
    obtain rfl : [] = l := Option.some.inj hl
    simp at ha
  · rw [show alookup gsChainCExt.ancestors 2 = some [0, 1] from rfl] at hl
    obtain rfl : [0, 1] = l := Option.some.inj hl
    simp at ha
    rcases ha with rfl | rfl <;> omega

theorem acyclic_gsChainCExt : AcyclicGS gsChainCExt := by
  apply acyclicGS_of_rank gsChainCExt id
  intro a b hab
  obtain ⟨l, hl, ha⟩ := hab
  have hm := alookup_isSome_mem gsChainCExt.ancestors b (by rw [hl]; rfl)
  simp [gsChainCExt] at hm
  show a < b
  rcases hm with rfl | rfl | rfl
  · rw [show alookup gsChainCExt.ancestors 0 = some [] from rfl] at hl
    obtain rfl : [] = l := Option.some.inj hl
    simp at ha
  · rw [show alookup gsChainCExt.ancestors 1 = some [] from rfl] at hl
    obtain rfl : [] = l := Option.some.inj hl
    simp at ha
  · rw [show alookup gsChainCExt.ancestors 2 = some [0, 1] from rfl] at hl
    obtain rfl : [0, 1] = l := Option.some.inj hl
    simp at ha
    rcases ha with rfl | rfl <;> omega

/-- C7 counterexample: extending the ancestor list of the former root `a`
in the two-root store (a successful `extend_ancestors` call) removes the
previously yielded path `[a]`: before the call `paths_from(a)` yields
exactly `[a]`; after it, every complete enumeration is `[[a, b]]` and the
old path `[a]` is never yielded again. -/
theorem c7_counterexample :
    ((GraphStack.new : GraphStack String).push "a" []).bind
        (fun p => p.1.push "b" []) = Except.ok (gsTwoRoots, 1) ∧
    gsTwoRoots.add_ancestors 0 [1] = Except.ok gsRootExt ∧
    pathsFromN gsTwoRoots 0 5 5 = some [["a"]] ∧
    pathsFromN gsRootExt 0 5 5 = some [["a", "b"]] ∧
    (∀ fuel steps l2, pathsFromN gsRootExt 0 fuel steps = some l2 → ["a"] ∉ l2) := by
  refine ⟨rfl, rfl, rfl, rfl, ?_⟩
  intro fuel steps l2 h
  have heq := pathsFromN_unique gsRootExt 0 fuel steps 5 5 l2 [["a", "b"]] h rfl
  subst heq
  intro hmem
  simp at hmem

/-- C7 amended: for a successful `extend_ancestors(m, new)` call on a node
`m` whose prior ancestor list is nonempty, provided the extended store
still satisfies the store invariants (ancestor ids exist, map covers the
nodes) and remains acyclic, every complete enumeration of the original
store from any start is a sublist (order-preserving subsequence) of the
extended store's enumeration from the same start — so every previously
yielded path is still yielded — and consequently the number of yielded
paths satisfying any predicate (in particular, passing through any given
node) never decreases. -/
theorem c7_extend_monotone {T : Type} (gs gs2 : GraphStack T) (m : Nat)
    (new : List Nat) (start f1 st1 f2 st2 : Nat) (L1 L2 : List (List T))
    (hok : gs.add_ancestors m new = Except.ok gs2)
    (hm : ∀ lm, alookup gs.ancestors m = some lm → lm ≠ [])
    (hinv2 : InvGS gs2) (hval2 : ValidAnc gs2) (hacy2 : AcyclicGS gs2)
    (h1 : pathsFromN gs start f1 st1 = some L1)
    (h2 : pathsFromN gs2 start f2 st2 = some L2) :
    L1.Sublist L2 ∧ ∀ q, L1.countP q ≤ L2.countP q := by
  have hext := extendsGS_of_add gs gs2 m new hok hm
  have hinv1 := invGS_of_extends gs gs2 hext hinv2
  have hval1 := validAnc_of_extends gs gs2 hext hval2
  have hacy1 := acyclic_of_extends gs gs2 hext hacy2
  have hstart1 : start < gs.items.length := pathsFromN_some_start_lt gs start f1 st1 L1 h1
  have hstart2 : start < gs2.items.length := by
    rw [hext.1]
    exact hstart1
  obtain ⟨Fa, La, hFa⟩ := pathsBelow_total_acc gs hinv1 hval1 start
    (acc_of_acyclic gs hinv1 hval1 hacy1 start) hstart1
  obtain ⟨Fb, Lb, hFb⟩ := pathsBelow_total_acc gs2 hinv2 hval2 start
    (acc_of_acyclic gs2 hinv2 hval2 hacy2 start) hstart2
  have hrun1 := pathsFromN_of_pathsBelow gs start Fa La hFa
  have hrun2 := pathsFromN_of_pathsBelow gs2 start Fb Lb hFb
  obtain rfl : L1 = La :=
    pathsFromN_unique gs start f1 st1 Fa (La.length + 1) L1 La h1 hrun1
  obtain rfl : L2 = Lb :=
    pathsFromN_unique gs2 start f2 st2 Fb (Lb.length + 1) L2 Lb h2 hrun2
  have hsub := pathsBelow_sublist_of_extends gs gs2 hext Fa Fb start 0 L1 L2 hFa hFb
  exact ⟨hsub, fun q => hsub.countP_le q⟩

/-- C7 witness: extending `c`'s nonempty ancestor list `[a]` with `b`
keeps the old path `[c, a]` and adds `[c, b]` after it. -/
theorem c7_extend_monotone_witness :
    ([["c", "a"]] : List (List String)).Sublist [["c", "a"], ["c", "b"]] ∧
    ∀ q, List.countP q [["c", "a"]] ≤ List.countP q [["c", "a"], ["c", "b"]] :=
  c7_extend_monotone gsChainC gsChainCExt 2 [1] 2 9 9 9 9
    [["c", "a"]] [["c", "a"], ["c", "b"]] rfl
    (by
      intro lm hlm
      rw [show alookup gsChainC.ancestors 2 = some [0] from rfl] at hlm
      obtain rfl : [0] = lm := Option.some.inj hlm
      intro hh
      exact List.noConfusion hh)
    invGS_gsChainCExt validAnc_gsChainCExt acyclic_gsChainCExt rfl rfl
